import Mathlib

/-!
Verification development for the `clonetree` repository.

The development shallowly embeds the core library `crates/clonetree/src/lib.rs`:
the `Options` configuration, the error taxonomy, glob-override compilation and
matching (delegated in the source to the `ignore` crate's `OverrideBuilder` /
gitignore semantics, embedded here from those semantics), the filtered
directory walk, and the `clone_tree` orchestration (validation, destination
creation, per-file parent materialization, overwrite delete, copy).

The filesystem is modelled as a finite tree of named nodes; paths are lists of
segment names.  Machine-level concerns (inode sharing of reflinks, io::Error
payloads) are abstracted to the observable level the library exposes: file
byte content, node kinds, and the error variant returned.  Fallible
environment effects (remove_file / copy failures) are injected through an
explicit environment value.
-/

namespace CloneTree

abbrev Name := String
abbrev RelPath := List Name

/-- Entry kinds as exposed by `DirEntry::file_type()`: regular file,
directory, symbolic link, or any other special file. -/
inductive EKind where
  | file
  | dir
  | symlink
  | other
  deriving DecidableEq, Repr

/-- `startsWith p q` holds when the segment list `p` is a (not necessarily
proper) prefix of `q`; used for the ancestor relation on paths. -/
def startsWith : List Name → List Name → Bool
  | [], _ => true
  | _ :: _, [] => false
  | a :: p, b :: q => a = b && startsWith p q

mutual
/-- A filesystem node: regular file with byte content, directory with a list
of named children, symbolic link, or other special file. -/
inductive FNode where
  | file (content : List Nat)
  | dir (children : Entries)
  | symlink (target : String)
  | other

/-- Children of a directory: an ordered association of names to nodes. -/
inductive Entries where
  | nil
  | cons (name : Name) (node : FNode) (rest : Entries)
end

/-- Kind of a node, as `file_type()` reports it. -/
def kindOf : FNode → EKind
  | .file _ => .file
  | .dir _ => .dir
  | .symlink _ => .symlink
  | .other => .other

/-- First child with the given name. -/
def lookupE : Entries → Name → Option FNode
  | .nil, _ => none
  | .cons a n rest, b => if a = b then some n else lookupE rest b

/-- Replace the first child with the given name. -/
def replaceE : Entries → Name → FNode → Entries
  | .nil, _, _ => .nil
  | .cons a n rest, b, m => if a = b then .cons a m rest else .cons a n (replaceE rest b m)

/-- Append a child at the end. -/
def appendE : Entries → Name → FNode → Entries
  | .nil, b, m => .cons b m .nil
  | .cons a n rest, b, m => .cons a n (appendE rest b m)

/-- Remove every child with the given name. -/
def removeE : Entries → Name → Entries
  | .nil, _ => .nil
  | .cons a n rest, b => if a = b then removeE rest b else .cons a n (removeE rest b)

/-- Node reached by following a path from this node. -/
def nodeAt : FNode → List Name → Option FNode
  | n, [] => some n
  | .dir cs, a :: p =>
      match lookupE cs a with
      | some c => nodeAt c p
      | none => none
  | _, _ :: _ => none

/-- Path exists (`Path::exists`). -/
def nodeExists (fs : FNode) (p : List Name) : Bool :=
  (nodeAt fs p).isSome

/-- Kind of the node at a path. -/
def kindAt (fs : FNode) (p : List Name) : Option EKind :=
  (nodeAt fs p).map kindOf

/-- Path is a directory (`Path::is_dir`). -/
def isDirAt (fs : FNode) (p : List Name) : Bool :=
  kindAt fs p = some EKind.dir

/-- Byte content of the regular file at a path, if any. -/
def fileAt (fs : FNode) (p : List Name) : Option (List Nat) :=
  match nodeAt fs p with
  | some (.file c) => some c
  | _ => none

/-- `std::fs::create_dir_all`: create the directory at `p` together with every
missing ancestor; fails when a non-directory is in the way. -/
def mkdirAll : FNode → List Name → Option FNode
  | .dir cs, [] => some (.dir cs)
  | .dir cs, a :: p =>
      match lookupE cs a with
      | some c => (mkdirAll c p).map (fun c' => .dir (replaceE cs a c'))
      | none => (mkdirAll (.dir .nil) p).map (fun c' => .dir (appendE cs a c'))
  | _, _ => none

/-- `std::fs::remove_file`: remove the non-directory node at `p`; fails when
the path is missing, is a directory, or is the root. -/
def removeFile : FNode → List Name → Option FNode
  | _, [] => none
  | .dir cs, [a] =>
      match lookupE cs a with
      | some (.dir _) => none
      | some _ => some (.dir (removeE cs a))
      | none => none
  | .dir cs, a :: b :: p =>
      match lookupE cs a with
      | some c => (removeFile c (b :: p)).map (fun c' => .dir (replaceE cs a c'))
      | none => none
  | _, _ :: _ => none

/-- Write a regular file with the given content at `p` (the effect of a
successful `reflink_or_copy` on the destination): requires the parent chain to
exist as directories and the target slot to not be a directory. -/
def writeFile : FNode → List Name → List Nat → Option FNode
  | _, [], _ => none
  | .dir cs, [a], c =>
      match lookupE cs a with
      | some (.dir _) => none
      | some _ => some (.dir (replaceE cs a (.file c)))
      | none => some (.dir (appendE cs a (.file c)))
  | .dir cs, a :: b :: p, c =>
      match lookupE cs a with
      | some ch => (writeFile ch (b :: p) c).map (fun ch' => .dir (replaceE cs a ch'))
      | none => none
  | _, _ :: _, _ => none

/-! ### Glob patterns

`clone_tree` delegates pattern handling to the `ignore` crate's
`OverrideBuilder`.  Its semantics (embedded below): each pattern line is
processed with gitignore rules — a leading `!` is stripped and inverts the
pattern into an exclude (override semantics invert gitignore's whitelist
meaning), a leading `/` anchors, a trailing `/` restricts to directories, a
slash-free pattern gets a `**/` prefix, and a pattern ending in `/**` gets a
`/*` suffix.  Matching is last-match-wins over the pattern list; a file (not
directory) matching nothing while at least one include pattern exists is
ignored.  Glob wildcards `*` and `?` do not cross `/`; `**` spans whole
segments.  (The crate relaxes the separator rule for slash-free patterns;
segment-wise matching is used uniformly here.) -/

/-- Glob compilation failures (`ignore::Error` causes). -/
inductive GlobErr where
  | unclosedClass
  | danglingEscape
  | invalidRecursive
  deriving DecidableEq, Repr

/-- An element of a character class: a single character or a range. -/
inductive ClsItem where
  | single (c : Char)
  | range (lo hi : Char)
  deriving DecidableEq, Repr

/-- A glob token within one path segment. -/
inductive MTok where
  | lit (c : Char)
  | qmark
  | star
  | cls (negated : Bool) (items : List ClsItem)
  deriving DecidableEq, Repr

/-- A compiled glob segment: `**` or a token sequence. -/
inductive Seg where
  | dstar
  | seg (toks : List MTok)
  deriving DecidableEq, Repr

/-- Parse the body of a character class up to the closing `]`; returns the
items and the remaining input. -/
def parseClassItemsF : Nat → List Char → Except GlobErr (List ClsItem × List Char)
  | 0, _ => .error .unclosedClass
  | _, [] => .error .unclosedClass
  | fuel + 1, c :: cs =>
    if c = ']' then .ok ([], cs)
    else if c = '\\' then
      match cs with
      | [] => .error .danglingEscape
      | d :: cs' =>
          match parseClassItemsF fuel cs' with
          | .error e => .error e
          | .ok (items, rest) => .ok (ClsItem.single d :: items, rest)
    else
      match cs with
      | '-' :: d :: cs' =>
          if d = ']' then .ok ([ClsItem.single c, ClsItem.single '-'], cs')
          else
            match parseClassItemsF fuel cs' with
            | .error e => .error e
            | .ok (items, rest) => .ok (ClsItem.range c d :: items, rest)
      | _ =>
          match parseClassItemsF fuel cs with
          | .error e => .error e
          | .ok (items, rest) => .ok (ClsItem.single c :: items, rest)

/-- Parse one segment's characters into glob tokens. -/
def parseToksF : Nat → List Char → Except GlobErr (List MTok)
  | 0, _ => .error .unclosedClass
  | _, [] => .ok []
  | fuel + 1, c :: cs =>
    if c = '\\' then
      match cs with
      | [] => .error .danglingEscape
      | d :: cs' =>
          match parseToksF fuel cs' with
          | .error e => .error e
          | .ok ts => .ok (MTok.lit d :: ts)
    else if c = '[' then
      let (neg, body) :=
        match cs with
        | '!' :: cs' => (true, cs')
        | '^' :: cs' => (true, cs')
        | _ => (false, cs)
      match parseClassItemsF (body.length + 1) body with
      | .error e => .error e
      | .ok (items, rest) =>
          match parseToksF fuel rest with
          | .error e => .error e
          | .ok ts => .ok (MTok.cls neg items :: ts)
    else if c = '?' then
      match parseToksF fuel cs with
      | .error e => .error e
      | .ok ts => .ok (MTok.qmark :: ts)
    else
      match parseToksF fuel cs with
      | .error e => .error e
      | .ok ts => .ok ((if c = '*' then MTok.star else MTok.lit c) :: ts)

/-- Two adjacent `*` tokens: an invalid use of `**` inside a segment. -/
def hasAdjStars : List MTok → Bool
  | .star :: .star :: _ => true
  | _ :: ts => hasAdjStars ts
  | [] => false

/-- Compile one path segment of a pattern. -/
def compileSeg (s : List Char) : Except GlobErr Seg :=
  if s = ['*', '*'] then .ok Seg.dstar
  else
    match parseToksF (s.length + 1) s with
    | .error e => .error e
    | .ok ts => if hasAdjStars ts then .error .invalidRecursive else .ok (Seg.seg ts)

/-- Split a character list on `/`. -/
def splitSlash : List Char → List (List Char)
  | [] => [[]]
  | c :: cs =>
      let r := splitSlash cs
      if c = '/' then [] :: r
      else
        match r with
        | s :: rest => (c :: s) :: rest
        | [] => [[c]]

def compileSegs : List (List Char) → Except GlobErr (List Seg)
  | [] => .ok []
  | s :: ss =>
      match compileSeg s with
      | .error e => .error e
      | .ok g =>
          match compileSegs ss with
          | .error e => .error e
          | .ok gs => .ok (g :: gs)

/-- One compiled override glob: exclude flag (pattern began with `!`),
directory-only flag (pattern ended with `/`), compiled segments. -/
structure OvGlob where
  exclude : Bool
  onlyDir : Bool
  segs : List Seg
  deriving DecidableEq, Repr

/-- The glob text is `**` or starts with `**/`. -/
def hasDstarStart : List Char → Bool
  | '*' :: '*' :: [] => true
  | '*' :: '*' :: '/' :: _ => true
  | _ => false

/-- The glob text ends with `/**`. -/
def endsWithSlashDstar (l : List Char) : Bool :=
  match l.reverse with
  | '*' :: '*' :: '/' :: _ => true
  | _ => false

/-- Process one pattern line with the gitignore rules used by
`OverrideBuilder::add` (comment and empty lines compile to no glob). -/
def compileLine (pattern : String) : Except GlobErr (Option OvGlob) :=
  let l0 := pattern.toList
  if l0.head? = some '#' then .ok none
  else if l0 = [] then .ok none
  else
    let excl := l0.head? = some '!'
    let l1 := if excl then l0.tail else l0
    let abs := l1.head? = some '/'
    let l2 := if abs then l1.tail else l1
    let onlyDir := l2.getLast? = some '/'
    let l3 := if onlyDir then l2.dropLast else l2
    let l4 :=
      if ¬ abs ∧ ¬ l3.contains '/' ∧ ¬ hasDstarStart l3 then
        '*' :: '*' :: '/' :: l3
      else l3
    let l5 := if endsWithSlashDstar l4 then l4 ++ ['/', '*'] else l4
    match compileSegs (splitSlash l5) with
    | .error e => .error e
    | .ok segs => .ok (some ⟨excl, onlyDir, segs⟩)

/-- Closed error taxonomy of the library (`enum Error` in lib.rs).  The
`io::Error` payloads are abstracted away. -/
inductive Error where
  | io
  | createDirectory (path : List Name)
  | copy (src dest : List Name)
  | invalidGlob (pattern : String) (cause : GlobErr)
  | destinationExists (path : List Name)
  | sourceNotDirectory (path : List Name)
  | sourceNotFound (path : List Name)
  | other (msg : String)
  deriving DecidableEq, Repr

/-- Compile the configured pattern list in order, stopping at the first
failing pattern with `InvalidGlob` (the loop in lib.rs lines 166-173). -/
def compileOverrides : List String → Except Error (List OvGlob)
  | [] => .ok []
  | p :: ps =>
      match compileLine p with
      | .error e => .error (.invalidGlob p e)
      | .ok none => compileOverrides ps
      | .ok (some g) =>
          match compileOverrides ps with
          | .error e => .error e
          | .ok gs => .ok (g :: gs)

/-! ### Glob matching -/

def clsMatch (c : Char) : ClsItem → Bool
  | .single d => c = d
  | .range lo hi => lo.toNat ≤ c.toNat && c.toNat ≤ hi.toNat

/-- Match a non-`star` token against one character. -/
def tokMatch (t : MTok) (c : Char) : Bool :=
  match t with
  | .lit d => c = d
  | .qmark => true
  | .star => false
  | .cls neg items => (items.any (clsMatch c)) != neg

/-- Match segment tokens against a segment's characters (`*` never crosses a
separator because matching is per segment). -/
def segMatchF : Nat → List MTok → List Char → Bool
  | 0, _, _ => false
  | _, [], [] => true
  | _, [], _ :: _ => false
  | fuel + 1, .star :: ts, [] => segMatchF fuel ts []
  | fuel + 1, .star :: ts, c :: cs =>
      segMatchF fuel ts (c :: cs) || segMatchF fuel (.star :: ts) cs
  | _, _ :: _, [] => false
  | fuel + 1, t :: ts, c :: cs => tokMatch t c && segMatchF fuel ts cs

def segMatch (ts : List MTok) (s : Name) : Bool :=
  segMatchF (ts.length + s.toList.length + 1) ts s.toList

/-- Match compiled segments against a relative path; `**` spans zero or more
whole segments. -/
def globMatchF : Nat → List Seg → RelPath → Bool
  | 0, _, _ => false
  | _, [], [] => true
  | _, [], _ :: _ => false
  | fuel + 1, .dstar :: gs, [] => globMatchF fuel gs []
  | fuel + 1, .dstar :: gs, n :: ns =>
      globMatchF fuel gs (n :: ns) || globMatchF fuel (.dstar :: gs) ns
  | _, .seg _ :: _, [] => false
  | fuel + 1, .seg ts :: gs, n :: ns => segMatch ts n && globMatchF fuel gs ns

def globMatch (gs : List Seg) (p : RelPath) : Bool :=
  globMatchF (gs.length + p.length + 1) gs p

/-- One override glob matched a candidate (directory-only globs require a
directory candidate). -/
def ovGlobMatch (g : OvGlob) (rel : RelPath) (isDir : Bool) : Bool :=
  (!g.onlyDir || isDir) && globMatch g.segs rel

/-- The last (highest-precedence) glob in the list matching the candidate. -/
def lastMatchOv : List OvGlob → RelPath → Bool → Option OvGlob
  | [], _, _ => none
  | g :: gs, rel, d =>
      match lastMatchOv gs rel d with
      | some g' => some g'
      | none => if ovGlobMatch g rel d then some g else none

/-- Result of `Override::matched`. -/
inductive OvMatch where
  | nomatch
  | ignore
  | whitelist
  deriving DecidableEq, Repr

/-- `Override::matched`: last match wins; a non-directory matching nothing
while include (whitelist) patterns exist is ignored; directories matching
nothing are not ignored (so traversal can reach deeper matches). -/
def ovMatched (gs : List OvGlob) (rel : RelPath) (isDir : Bool) : OvMatch :=
  if gs.isEmpty then .nomatch
  else
    match lastMatchOv gs rel isDir with
    | some g => if g.exclude then .ignore else .whitelist
    | none => if gs.any (fun g => !g.exclude) && !isDir then .ignore else .nomatch

/-- Match decision when overrides may be absent (empty `Options.globs` skips
`builder.overrides` entirely). -/
def ovDecide : Option (List OvGlob) → RelPath → Bool → OvMatch
  | none, _, _ => .nomatch
  | some gs, rel, d => ovMatched gs rel d

/-! ### The walker

`WalkBuilder` with `standard_filters(false)` and the overrides installed:
depth-first enumeration yielding the root and every non-ignored descendant;
an ignored directory is pruned wholesale (never descended), an ignored file
is not yielded.  Symbolic links are not followed (`follow_links` defaults to
false), so a symlink is yielded as a symlink entry and never descended. -/

def isDirN : FNode → Bool
  | .dir _ => true
  | _ => false

mutual
/-- Entries yielded beneath a node (the node itself, already yielded, is a
directory when this recurses). -/
def walkInto : FNode → RelPath → Option (List OvGlob) → List (RelPath × EKind)
  | .dir cs, rel, ov => walkKids cs rel ov
  | _, _, _ => []

/-- Process each child of a directory at relative path `rel`. -/
def walkKids : Entries → RelPath → Option (List OvGlob) → List (RelPath × EKind)
  | .nil, _, _ => []
  | .cons a n rest, rel, ov =>
      (if ovDecide ov (rel ++ [a]) (isDirN n) = OvMatch.ignore then []
       else (rel ++ [a], kindOf n) :: walkInto n (rel ++ [a]) ov)
      ++ walkKids rest rel ov
end

/-- All entries yielded for the source root node: the root itself first, then
the filtered descendants, with paths relative to the root. -/
def walkAll (n : FNode) (ov : Option (List OvGlob)) : List (RelPath × EKind) :=
  ([], EKind.dir) :: walkInto n [] ov

/-! ### The clone operation -/

/-- The configuration (`struct Options` in lib.rs): the ordered pattern list
and the overwrite flag.  These are its only fields. -/
structure Options where
  globs : List String
  overwrite : Bool
  deriving Repr

/-- Injected environment faults: paths at which `std::fs::remove_file`
respectively `reflink_or_copy` fail for external reasons (permissions, I/O).
An empty environment means no externally-caused failures. -/
structure Env where
  removeFailAt : List (List Name)
  copyFailAt : List (List Name)
  deriving Repr

def Env.clean : Env := ⟨[], []⟩

/-- Clone state inside the walk loop: the filesystem and the `created_dirs`
cache. -/
abbrev CState := FNode × List (List Name)

/-- The body of the walk loop (lib.rs lines 182-223) for one yielded entry,
given as (path relative to the source root, entry kind): skip the root
(`path == src`); for regular files create the parent directory unless cached,
remove a pre-existing destination file when overwriting (failure maps to
`Error::Io`), then copy, with any copy failure as `Copy{src, dest}`;
non-files are skipped. -/
def cloneStep (src dest : List Name) (opts : Options) (env : Env)
    (st : CState) (e : RelPath × EKind) : Option Error × CState :=
  if e.1 = [] then (none, st)
  else if e.2 = EKind.file then
    let rel := e.1
    let parent := dest ++ rel.dropLast
    match (if parent ∈ st.2 then some st
           else
             match mkdirAll st.1 parent with
             | some fs' => some (fs', parent :: st.2)
             | none => none) with
    | none => (some (.createDirectory parent), st)
    | some st1 =>
      match (if opts.overwrite && nodeExists st1.1 (dest ++ rel) then
               if (dest ++ rel) ∈ env.removeFailAt then none
               else removeFile st1.1 (dest ++ rel)
             else some st1.1) with
      | none => (some .io, st1)
      | some fs2 =>
          if (dest ++ rel) ∈ env.copyFailAt then
            (some (.copy (src ++ rel) (dest ++ rel)), (fs2, st1.2))
          else
            match fileAt fs2 (src ++ rel) with
            | some c =>
                match writeFile fs2 (dest ++ rel) c with
                | some fs3 => (none, (fs3, st1.2))
                | none => (some (.copy (src ++ rel) (dest ++ rel)), (fs2, st1.2))
            | none => (some (.copy (src ++ rel) (dest ++ rel)), (fs2, st1.2))
  else (none, st)

/-- Run the walk loop over the yielded entries, aborting at the first error
with the filesystem as mutated so far. -/
def processEntries (src dest : List Name) (opts : Options) (env : Env) :
    List (RelPath × EKind) → CState → Option Error × CState
  | [], st => (none, st)
  | e :: es, st =>
      match cloneStep src dest opts env st e with
      | (some err, st') => (some err, st')
      | (none, st') => processEntries src dest opts env es st'

/-- Build the override matcher exactly as `clone_tree` does: skipped entirely
when the pattern list is empty. -/
def cloneOverrides (opts : Options) : Except Error (Option (List OvGlob)) :=
  if opts.globs.isEmpty then .ok none
  else (compileOverrides opts.globs).map some

/-- `clone_tree(src, dest, options)` over filesystem `fs` with environment
`env`; returns the error (if any) together with the filesystem after the
call.  Mirrors lib.rs lines 118-226: source-exists and source-is-directory
validation, destination validation, destination creation, matcher
construction, walk, per-entry processing. -/
def cloneTree (fs : FNode) (src dest : List Name) (opts : Options)
    (env : Env) : Option Error × FNode :=
  if ¬ nodeExists fs src then (some (.sourceNotFound src), fs)
  else if ¬ isDirAt fs src then (some (.sourceNotDirectory src), fs)
  else if nodeExists fs dest && !opts.overwrite then
    (some (.destinationExists dest), fs)
  else
    match (if ¬ nodeExists fs dest then mkdirAll fs dest else some fs) with
    | none => (some (.createDirectory dest), fs)
    | some fs1 =>
      match cloneOverrides opts with
      | .error e => (some e, fs1)
      | .ok ov =>
          match nodeAt fs1 src with
          | some n =>
              let r := processEntries src dest opts env (walkAll n ov) (fs1, [dest])
              (r.1, r.2.1)
          | none => (some (.other "walk error"), fs1)

/-- The entries the clone's walk yields, as a function of the initial
filesystem (the source subtree is unchanged by destination creation when the
two roots are not nested). -/
def cloneEntries (fs : FNode) (src : List Name) (opts : Options) :
    List (RelPath × EKind) :=
  match cloneOverrides opts, nodeAt fs src with
  | .ok ov, some n => walkAll n ov
  | _, _ => []

/-- `rel` names an included source file: a nonroot entry the walk yields with
regular-file kind.  Exactly these relative paths are copied. -/
def copied (es : List (RelPath × EKind)) (rel : RelPath) : Prop :=
  rel ≠ [] ∧ (rel, EKind.file) ∈ es

instance (es : List (RelPath × EKind)) (rel : RelPath) :
    Decidable (copied es rel) := by
  unfold copied
  exact inferInstance

/-- Induction principle for `Entries` alone (the mutual recursor has two
motives; directory children are not recursed into here). -/
def entriesRec {motive : Entries → Sort _} (nil : motive .nil)
    (cons : ∀ a n rest, motive rest → motive (.cons a n rest)) :
    ∀ cs, motive cs
  | .nil => nil
  | .cons a n rest => cons a n rest (entriesRec nil cons rest)


def memName (a : Name) : List Name → Bool
  | [] => false
  | b :: r => a = b || memName a r

def namesOf : Entries → List Name
  | .nil => []
  | .cons a _ rest => a :: namesOf rest

mutual
def wfN : FNode → Bool
  | .dir cs => wfE cs
  | _ => true

def wfE : Entries → Bool
  | .nil => true
  | .cons a n rest => !(memName a (namesOf rest)) && wfN n && wfE rest
end


/-! ### Concrete fixtures used by witnesses and counterexamples -/

/-- A source tree with a file, a subdirectory with a file, and a symlink. -/
def fsFresh : FNode :=
  .dir (.cons "s" (.dir (.cons "a.txt" (.file [1])
       (.cons "sub" (.dir (.cons "b.txt" (.file [2]) .nil))
       (.cons "ln" (.symlink "t") .nil)))) .nil)

/-- A source tree plus a pre-populated destination, for overwrite-merge
scenarios. -/
def fsOver : FNode :=
  .dir (.cons "s" (.dir (.cons "f1" (.file [11])
       (.cons "f2" (.file [12])
       (.cons "sub" (.dir (.cons "f3" (.file [13]) .nil)) .nil))))
       (.cons "d" (.dir (.cons "f1" (.file [1])
       (.cons "keep" (.file [7])
       (.cons "sub" (.dir (.cons "f3" (.file [3])
                          (.cons "keep2" (.file [8]) .nil))) .nil))))
       .nil))

/-- A one-file source tree. -/
def fsOne : FNode :=
  .dir (.cons "s" (.dir (.cons "a.txt" (.file [1]) .nil)) .nil)

/-- A one-file source next to a destination holding a different file. -/
def fsPair : FNode :=
  .dir (.cons "s" (.dir (.cons "a.txt" (.file [1]) .nil))
       (.cons "d" (.dir (.cons "b.txt" (.file [2]) .nil)) .nil))

/-- Source and destination both holding `a.txt`, for overwrite-delete
scenarios. -/
def fsRem : FNode :=
  .dir (.cons "s" (.dir (.cons "a.txt" (.file [1]) .nil))
       (.cons "d" (.dir (.cons "a.txt" (.file [2]) .nil)) .nil))

/-- Destination pre-populated with an empty directory `old`. -/
def fsOld : FNode :=
  .dir (.cons "s" (.dir (.cons "a.txt" (.file [1]) .nil))
       (.cons "d" (.dir (.cons "old" (.dir .nil) .nil)) .nil))

/-! ### Path prefix lemmas -/

theorem startsWith_eq_true {p q : List Name} :
    startsWith p q = true ↔ ∃ r, q = p ++ r := by
  induction p generalizing q with
  | nil => simp [startsWith]
  | cons a p ih =>
    cases q with
    | nil =>
        simp only [startsWith, Bool.false_eq_true, false_iff, not_exists]
        intro r h
        exact absurd h (by simp)
    | cons b q =>
        simp only [startsWith, Bool.and_eq_true, decide_eq_true_eq, ih,
          List.cons_append, List.cons_eq_cons]
        constructor
        · rintro ⟨rfl, r, rfl⟩
          exact ⟨r, rfl, rfl⟩
        · rintro ⟨r, rfl, rfl⟩
          exact ⟨rfl, r, rfl⟩

theorem startsWith_refl (p : List Name) : startsWith p p = true :=
  startsWith_eq_true.2 ⟨[], by simp⟩

theorem startsWith_append (p q : List Name) : startsWith p (p ++ q) = true :=
  startsWith_eq_true.2 ⟨q, rfl⟩

theorem startsWith_cancel {d a b : List Name} :
    startsWith (d ++ a) (d ++ b) = startsWith a b := by
  induction d with
  | nil => rfl
  | cons x d ih => simp [startsWith, ih]

theorem startsWith_length {p q : List Name} (h : startsWith p q = true) :
    p.length ≤ q.length := by
  obtain ⟨r, rfl⟩ := startsWith_eq_true.1 h
  simp

theorem startsWith_antisym {p q : List Name} (h1 : startsWith p q = true)
    (h2 : startsWith q p = true) : p = q := by
  obtain ⟨r, rfl⟩ := startsWith_eq_true.1 h1
  have hl := startsWith_length h2
  simp at hl
  simp [hl]

theorem startsWith_trans {p q r : List Name} (h1 : startsWith p q = true)
    (h2 : startsWith q r = true) : startsWith p r = true := by
  obtain ⟨x, rfl⟩ := startsWith_eq_true.1 h1
  obtain ⟨y, rfl⟩ := startsWith_eq_true.1 h2
  exact startsWith_eq_true.2 ⟨x ++ y, by simp⟩

theorem startsWith_comparable {a b c : List Name} (h1 : startsWith a c = true)
    (h2 : startsWith b c = true) :
    startsWith a b = true ∨ startsWith b a = true := by
  induction c generalizing a b with
  | nil =>
      cases a with
      | nil => exact Or.inl rfl
      | cons x a => simp [startsWith] at h1
  | cons z c ih =>
      cases a with
      | nil => exact Or.inl rfl
      | cons x a =>
        cases b with
        | nil => exact Or.inr rfl
        | cons y b =>
          simp only [startsWith, Bool.and_eq_true, decide_eq_true_eq] at h1 h2 ⊢
          obtain ⟨rfl, h1⟩ := h1
          obtain ⟨rfl, h2⟩ := h2
          rcases ih h1 h2 with h | h
          · exact Or.inl ⟨rfl, h⟩
          · exact Or.inr ⟨rfl, h⟩

/-- Two extensions of incomparable roots stay incomparable, and an extension
of one root never equals an extension of the other. -/
theorem startsWith_disjoint {s d : List Name}
    (hsd : ¬ startsWith s d = true) (hds : ¬ startsWith d s = true)
    {a b : List Name} : ¬ startsWith (d ++ a) (s ++ b) = true := by
  intro h
  have h1 : startsWith d (s ++ b) = true :=
    startsWith_trans (startsWith_append d a) h
  have h2 : startsWith s (s ++ b) = true := startsWith_append s b
  rcases startsWith_comparable h1 h2 with h' | h'
  · exact hds h'
  · exact hsd h'

/-! ### Entries lookup lemmas -/

theorem lookupE_replaceE_of_some {cs : Entries} {a : Name}
    (h : (lookupE cs a).isSome) (c' : FNode) (b : Name) :
    lookupE (replaceE cs a c') b = if a = b then some c' else lookupE cs b := by
  induction cs using entriesRec with
  | nil => simp [lookupE] at h
  | cons x n rest ih =>
      by_cases hxa : x = a
      · subst hxa
        simp only [replaceE, if_pos rfl, lookupE]
        by_cases hxb : x = b <;> simp [lookupE, hxb]
      · simp only [replaceE, if_neg hxa, lookupE]
        by_cases hxb : x = b
        · subst hxb
          have hax : ¬ a = x := fun h' => hxa h'.symm
          simp [if_neg hax, lookupE, if_neg hxa]
        · simp only [if_neg hxb]
          apply ih
          simpa [lookupE, if_neg hxa] using h

theorem lookupE_appendE (cs : Entries) (a : Name) (m : FNode) (b : Name) :
    lookupE (appendE cs a m) b =
      match lookupE cs b with
      | some v => some v
      | none => if a = b then some m else none := by
  induction cs using entriesRec with
  | nil => simp [appendE, lookupE]
  | cons x n rest ih =>
      by_cases hxb : x = b <;> simp [appendE, lookupE, hxb, ih]

theorem lookupE_removeE (cs : Entries) (a b : Name) :
    lookupE (removeE cs a) b = if a = b then none else lookupE cs b := by
  induction cs using entriesRec with
  | nil => simp [removeE, lookupE]
  | cons x n rest ih =>
      by_cases hxa : x = a
      · subst hxa
        by_cases hxb : x = b
        · subst hxb
          simp [removeE, lookupE, ih]
        · simp [removeE, lookupE, hxb, ih]
      · by_cases hxb : x = b
        · subst hxb
          have hax : ¬ a = x := fun h' => hxa h'.symm
          simp [removeE, lookupE, hxa, if_neg hax, ih]
        · simp [removeE, lookupE, hxa, hxb, ih]

/-! ### nodeAt lemmas -/

theorem nodeAt_append (fs : FNode) (p q : List Name) :
    nodeAt fs (p ++ q) = (nodeAt fs p).bind (fun m => nodeAt m q) := by
  induction p generalizing fs with
  | nil => simp [nodeAt]
  | cons a p ih =>
      cases fs with
      | dir cs =>
          simp only [List.cons_append, nodeAt]
          cases lookupE cs a with
          | some c => simp [ih]
          | none => simp
      | file c => simp [nodeAt]
      | symlink t => simp [nodeAt]
      | other => simp [nodeAt]

theorem nodeAt_file {c : List Nat} {p : List Name} (hp : p ≠ []) :
    nodeAt (FNode.file c) p = none := by
  cases p with
  | nil => exact absurd rfl hp
  | cons a p => rfl

theorem nodeAt_symlink {t : String} {p : List Name} (hp : p ≠ []) :
    nodeAt (FNode.symlink t) p = none := by
  cases p with
  | nil => exact absurd rfl hp
  | cons a p => rfl

theorem nodeAt_other {p : List Name} (hp : p ≠ []) :
    nodeAt FNode.other p = none := by
  cases p with
  | nil => exact absurd rfl hp
  | cons a p => rfl

theorem nodeAt_nil (n : FNode) : nodeAt n [] = some n := by
  cases n <;> rfl

/-- Any existing path's proper ancestors are directories. -/
theorem ancestors_dir {fs : FNode} {p q : List Name}
    (h : (nodeAt fs (p ++ q)).isSome) (hq : q ≠ []) :
    ∃ cs, nodeAt fs p = some (FNode.dir cs) := by
  rw [nodeAt_append] at h
  cases hn : nodeAt fs p with
  | none => rw [hn] at h; simp at h
  | some m =>
      rw [hn] at h
      cases m with
      | dir cs => exact ⟨cs, rfl⟩
      | file c => rw [Option.some_bind, nodeAt_file hq] at h; simp at h
      | symlink t => rw [Option.some_bind, nodeAt_symlink hq] at h; simp at h
      | other => rw [Option.some_bind, nodeAt_other hq] at h; simp at h

theorem lookupE_replaceE_self {cs : Entries} {a : Name}
    (h : (lookupE cs a).isSome) (c' : FNode) :
    lookupE (replaceE cs a c') a = some c' := by
  rw [lookupE_replaceE_of_some h c' a, if_pos rfl]

theorem lookupE_replaceE_other {cs : Entries} {a b : Name}
    (h : (lookupE cs a).isSome) (hab : a ≠ b) (c' : FNode) :
    lookupE (replaceE cs a c') b = lookupE cs b := by
  rw [lookupE_replaceE_of_some h c' b, if_neg hab]

theorem lookupE_appendE_of_some {cs : Entries} {b : Name} {v : FNode}
    (hl : lookupE cs b = some v) (a : Name) (m : FNode) :
    lookupE (appendE cs a m) b = some v := by
  rw [lookupE_appendE, hl]

theorem lookupE_appendE_self {cs : Entries} {b : Name}
    (hl : lookupE cs b = none) (m : FNode) :
    lookupE (appendE cs b m) b = some m := by
  rw [lookupE_appendE, hl]
  simp

theorem lookupE_appendE_of_none {cs : Entries} {a b : Name}
    (hl : lookupE cs b = none) (hab : a ≠ b) (m : FNode) :
    lookupE (appendE cs a m) b = none := by
  rw [lookupE_appendE, hl]
  simp [hab]

/-! ### Observable unfolding helpers -/

theorem nodeAt_dir_cons_some {cs : Entries} {b : Name} {c : FNode}
    (hl : lookupE cs b = some c) (q : List Name) :
    nodeAt (FNode.dir cs) (b :: q) = nodeAt c q := by
  simp [nodeAt, hl]

theorem nodeAt_dir_cons_none {cs : Entries} {b : Name}
    (hl : lookupE cs b = none) (q : List Name) :
    nodeAt (FNode.dir cs) (b :: q) = none := by
  simp [nodeAt, hl]

theorem fileAt_dir_cons_some {cs : Entries} {b : Name} {c : FNode}
    (hl : lookupE cs b = some c) (q : List Name) :
    fileAt (FNode.dir cs) (b :: q) = fileAt c q := by
  simp [fileAt, nodeAt_dir_cons_some hl]

theorem fileAt_dir_cons_none {cs : Entries} {b : Name}
    (hl : lookupE cs b = none) (q : List Name) :
    fileAt (FNode.dir cs) (b :: q) = none := by
  simp [fileAt, nodeAt_dir_cons_none hl]

theorem kindAt_dir_cons_some {cs : Entries} {b : Name} {c : FNode}
    (hl : lookupE cs b = some c) (q : List Name) :
    kindAt (FNode.dir cs) (b :: q) = kindAt c q := by
  simp [kindAt, nodeAt_dir_cons_some hl]

theorem kindAt_dir_cons_none {cs : Entries} {b : Name}
    (hl : lookupE cs b = none) (q : List Name) :
    kindAt (FNode.dir cs) (b :: q) = none := by
  simp [kindAt, nodeAt_dir_cons_none hl]

theorem fileAt_dir_nil (cs : Entries) : fileAt (FNode.dir cs) [] = none := rfl

theorem kindAt_dir_nil (cs : Entries) :
    kindAt (FNode.dir cs) [] = some EKind.dir := rfl

/-- Below a non-directory node nothing exists. -/
theorem nodeAt_of_not_dir {n : FNode} (hn : isDirN n = false) {q : List Name}
    (hq : q ≠ []) : nodeAt n q = none := by
  cases n with
  | dir cs => simp [isDirN] at hn
  | file c => exact nodeAt_file hq
  | symlink t => exact nodeAt_symlink hq
  | other => exact nodeAt_other hq

theorem fileAt_of_not_dir {n : FNode} (hn : isDirN n = false) {q : List Name}
    (hq : q ≠ []) : fileAt n q = none := by
  simp [fileAt, nodeAt_of_not_dir hn hq]

theorem kindAt_of_not_dir {n : FNode} (hn : isDirN n = false) {q : List Name}
    (hq : q ≠ []) : kindAt n q = none := by
  simp [kindAt, nodeAt_of_not_dir hn hq]

theorem fileAt_dirnil (q : List Name) : fileAt (FNode.dir .nil) q = none := by
  cases q with
  | nil => rfl
  | cons b q' =>
      exact fileAt_dir_cons_none (show lookupE Entries.nil b = none from rfl) q'

theorem kindAt_dirnil {q : List Name} (hq : q ≠ []) :
    kindAt (FNode.dir .nil) q = none := by
  cases q with
  | nil => exact absurd rfl hq
  | cons b q' =>
      exact kindAt_dir_cons_none (show lookupE Entries.nil b = none from rfl) q'

/-! ### mkdirAll lemmas -/

theorem mkdirAll_fileAt {p : List Name} :
    ∀ {fs fs' : FNode}, mkdirAll fs p = some fs' →
    ∀ q, fileAt fs' q = fileAt fs q := by
  induction p with
  | nil =>
      intro fs fs' h q
      cases fs with
      | dir cs => simp only [mkdirAll, Option.some.injEq] at h; rw [← h]
      | file c => simp [mkdirAll] at h
      | symlink t => simp [mkdirAll] at h
      | other => simp [mkdirAll] at h
  | cons a p' ih =>
      intro fs fs' h q
      cases fs with
      | file c => simp [mkdirAll] at h
      | symlink t => simp [mkdirAll] at h
      | other => simp [mkdirAll] at h
      | dir cs =>
        simp only [mkdirAll] at h
        cases hl : lookupE cs a with
        | some c =>
            rw [hl] at h
            simp only [Option.map_eq_some'] at h
            obtain ⟨c', hc', rfl⟩ := h
            cases q with
            | nil => rfl
            | cons b q' =>
                by_cases hab : a = b
                · subst hab
                  rw [fileAt_dir_cons_some (lookupE_replaceE_self (by simp [hl]) c') q',
                    fileAt_dir_cons_some hl q']
                  exact ih hc' q'
                · cases hlb : lookupE cs b with
                  | some v =>
                      rw [fileAt_dir_cons_some
                          (hlb ▸ lookupE_replaceE_other (by simp [hl]) hab c') q',
                        fileAt_dir_cons_some hlb q']
                  | none =>
                      rw [fileAt_dir_cons_none
                          (hlb ▸ lookupE_replaceE_other (by simp [hl]) hab c') q',
                        fileAt_dir_cons_none hlb q']
        | none =>
            rw [hl] at h
            simp only [Option.map_eq_some'] at h
            obtain ⟨c', hc', rfl⟩ := h
            cases q with
            | nil => rfl
            | cons b q' =>
                cases hlb : lookupE cs b with
                | some v =>
                    rw [fileAt_dir_cons_some (lookupE_appendE_of_some hlb a c') q',
                      fileAt_dir_cons_some hlb q']
                | none =>
                    by_cases hab : a = b
                    · subst hab
                      rw [fileAt_dir_cons_some (lookupE_appendE_self hlb c') q',
                        fileAt_dir_cons_none hlb q', ih hc' q', fileAt_dirnil]
                    · rw [fileAt_dir_cons_none (lookupE_appendE_of_none hlb hab c') q',
                        fileAt_dir_cons_none hlb q']

theorem mkdirAll_kindAt {p : List Name} :
    ∀ {fs fs' : FNode}, mkdirAll fs p = some fs' →
    ∀ q, kindAt fs' q = kindAt fs q ∨
      (kindAt fs q = none ∧ kindAt fs' q = some EKind.dir ∧
        startsWith q p = true) := by
  induction p with
  | nil =>
      intro fs fs' h q
      cases fs with
      | dir cs =>
          simp only [mkdirAll, Option.some.injEq] at h
          rw [← h]
          exact Or.inl rfl
      | file c => simp [mkdirAll] at h
      | symlink t => simp [mkdirAll] at h
      | other => simp [mkdirAll] at h
  | cons a p' ih =>
      intro fs fs' h q
      cases fs with
      | file c => simp [mkdirAll] at h
      | symlink t => simp [mkdirAll] at h
      | other => simp [mkdirAll] at h
      | dir cs =>
        simp only [mkdirAll] at h
        cases hl : lookupE cs a with
        | some c =>
            rw [hl] at h
            simp only [Option.map_eq_some'] at h
            obtain ⟨c', hc', rfl⟩ := h
            cases q with
            | nil => exact Or.inl rfl
            | cons b q' =>
                by_cases hab : a = b
                · subst hab
                  rw [kindAt_dir_cons_some (lookupE_replaceE_self (by simp [hl]) c') q',
                    kindAt_dir_cons_some hl q']
                  rcases ih hc' q' with h' | ⟨h1, h2, h3⟩
                  · exact Or.inl h'
                  · exact Or.inr ⟨h1, h2, by simp [startsWith, h3]⟩
                · cases hlb : lookupE cs b with
                  | some v =>
                      rw [kindAt_dir_cons_some
                          (hlb ▸ lookupE_replaceE_other (by simp [hl]) hab c') q',
                        kindAt_dir_cons_some hlb q']
                      exact Or.inl rfl
                  | none =>
                      rw [kindAt_dir_cons_none
                          (hlb ▸ lookupE_replaceE_other (by simp [hl]) hab c') q',
                        kindAt_dir_cons_none hlb q']
                      exact Or.inl rfl
        | none =>
            rw [hl] at h
            simp only [Option.map_eq_some'] at h
            obtain ⟨c', hc', rfl⟩ := h
            cases q with
            | nil => exact Or.inl rfl
            | cons b q' =>
                cases hlb : lookupE cs b with
                | some v =>
                    rw [kindAt_dir_cons_some (lookupE_appendE_of_some hlb a c') q',
                      kindAt_dir_cons_some hlb q']
                    exact Or.inl rfl
                | none =>
                    by_cases hab : a = b
                    · subst hab
                      rw [kindAt_dir_cons_some (lookupE_appendE_self hlb c') q',
                        kindAt_dir_cons_none hlb q']
                      cases q' with
                      | nil =>
                          rcases ih hc' [] with h' | ⟨h1, h2, h3⟩
                          · exact Or.inr ⟨rfl, by rw [h']; rfl, by simp [startsWith]⟩
                          · exact Or.inr ⟨rfl, h2, by simp [startsWith]⟩
                      | cons x xs =>
                          rcases ih hc' (x :: xs) with h' | ⟨h1, h2, h3⟩
                          · exact Or.inl (by rw [h', kindAt_dirnil (by simp)])
                          · exact Or.inr ⟨rfl, h2, by simp [startsWith, h3]⟩
                    · rw [kindAt_dir_cons_none (lookupE_appendE_of_none hlb hab c') q',
                        kindAt_dir_cons_none hlb q']
                      exact Or.inl rfl

theorem mkdirAll_dir_preserved {p : List Name} {fs fs' : FNode}
    (h : mkdirAll fs p = some fs') {q : List Name}
    (hd : kindAt fs q = some EKind.dir) : kindAt fs' q = some EKind.dir := by
  rcases mkdirAll_kindAt h q with h' | ⟨h1, _, _⟩
  · rw [h', hd]
  · rw [hd] at h1
    cases h1

theorem mkdirAll_out {p : List Name} :
    ∀ {fs fs' : FNode}, mkdirAll fs p = some fs' →
    ∀ q, ¬ startsWith q p = true → ¬ startsWith p q = true →
      nodeAt fs' q = nodeAt fs q := by
  induction p with
  | nil =>
      intro fs fs' h q hqp hpq
      exact absurd rfl hpq
  | cons a p' ih =>
      intro fs fs' h q hqp hpq
      cases fs with
      | file c => simp [mkdirAll] at h
      | symlink t => simp [mkdirAll] at h
      | other => simp [mkdirAll] at h
      | dir cs =>
        simp only [mkdirAll] at h
        cases q with
        | nil => exact absurd rfl hqp
        | cons b q' =>
          have hqp' : a = b → ¬ startsWith q' p' = true := by
            intro hab hs
            exact hqp (by simp [startsWith, hab, hs])
          have hpq' : a = b → ¬ startsWith p' q' = true := by
            intro hab hs
            exact hpq (by simp [startsWith, hab, hs])
          cases hl : lookupE cs a with
          | some c =>
              rw [hl] at h
              simp only [Option.map_eq_some'] at h
              obtain ⟨c', hc', rfl⟩ := h
              by_cases hab : a = b
              · subst hab
                rw [nodeAt_dir_cons_some (lookupE_replaceE_self (by simp [hl]) c') q',
                  nodeAt_dir_cons_some hl q']
                exact ih hc' q' (hqp' rfl) (hpq' rfl)
              · cases hlb : lookupE cs b with
                | some v =>
                    rw [nodeAt_dir_cons_some
                        (hlb ▸ lookupE_replaceE_other (by simp [hl]) hab c') q',
                      nodeAt_dir_cons_some hlb q']
                | none =>
                    rw [nodeAt_dir_cons_none
                        (hlb ▸ lookupE_replaceE_other (by simp [hl]) hab c') q',
                      nodeAt_dir_cons_none hlb q']
          | none =>
              rw [hl] at h
              simp only [Option.map_eq_some'] at h
              obtain ⟨c', hc', rfl⟩ := h
              by_cases hab : a = b
              · subst hab
                rw [nodeAt_dir_cons_some (lookupE_appendE_self hl c') q',
                  nodeAt_dir_cons_none hl q']
                have hq'ne : q' ≠ [] := by
                  intro hq'
                  exact hqp' rfl (by simp [hq', startsWith])
                rw [ih hc' q' (hqp' rfl) (hpq' rfl)]
                cases q' with
                | nil => exact absurd rfl hq'ne
                | cons x xs =>
                    exact nodeAt_dir_cons_none (show lookupE Entries.nil x = none from rfl) xs
              · cases hlb : lookupE cs b with
                | some v =>
                    rw [nodeAt_dir_cons_some (lookupE_appendE_of_some hlb a c') q',
                      nodeAt_dir_cons_some hlb q']
                | none =>
                    rw [nodeAt_dir_cons_none (lookupE_appendE_of_none hlb hab c') q',
                      nodeAt_dir_cons_none hlb q']

theorem mkdirAll_target {p : List Name} :
    ∀ {fs fs' : FNode}, mkdirAll fs p = some fs' →
    kindAt fs' p = some EKind.dir := by
  induction p with
  | nil =>
      intro fs fs' h
      cases fs with
      | dir cs => simp only [mkdirAll, Option.some.injEq] at h; rw [← h]; rfl
      | file c => simp [mkdirAll] at h
      | symlink t => simp [mkdirAll] at h
      | other => simp [mkdirAll] at h
  | cons a p' ih =>
      intro fs fs' h
      cases fs with
      | file c => simp [mkdirAll] at h
      | symlink t => simp [mkdirAll] at h
      | other => simp [mkdirAll] at h
      | dir cs =>
        simp only [mkdirAll] at h
        cases hl : lookupE cs a with
        | some c =>
            rw [hl] at h
            simp only [Option.map_eq_some'] at h
            obtain ⟨c', hc', rfl⟩ := h
            rw [kindAt_dir_cons_some (lookupE_replaceE_self (by simp [hl]) c') p']
            exact ih hc'
        | none =>
            rw [hl] at h
            simp only [Option.map_eq_some'] at h
            obtain ⟨c', hc', rfl⟩ := h
            rw [kindAt_dir_cons_some (lookupE_appendE_self hl c') p']
            exact ih hc'

/-! ### Congruence helpers: equal lookups give equal observables -/

theorem nodeAt_dir_cons_congr {cs cs' : Entries} {b : Name}
    (h : lookupE cs' b = lookupE cs b) (q : List Name) :
    nodeAt (FNode.dir cs') (b :: q) = nodeAt (FNode.dir cs) (b :: q) := by
  cases hl : lookupE cs b with
  | some v => rw [nodeAt_dir_cons_some (h.trans hl) q, nodeAt_dir_cons_some hl q]
  | none => rw [nodeAt_dir_cons_none (h.trans hl) q, nodeAt_dir_cons_none hl q]

theorem fileAt_dir_cons_congr {cs cs' : Entries} {b : Name}
    (h : lookupE cs' b = lookupE cs b) (q : List Name) :
    fileAt (FNode.dir cs') (b :: q) = fileAt (FNode.dir cs) (b :: q) := by
  simp [fileAt, nodeAt_dir_cons_congr h q]

theorem kindAt_dir_cons_congr {cs cs' : Entries} {b : Name}
    (h : lookupE cs' b = lookupE cs b) (q : List Name) :
    kindAt (FNode.dir cs') (b :: q) = kindAt (FNode.dir cs) (b :: q) := by
  simp [kindAt, nodeAt_dir_cons_congr h q]

/-! ### removeFile lemmas -/

/-- Success of `removeFile` at `[a]` pins down the looked-up node (non-dir)
and the result. -/
theorem removeFile_base {cs : Entries} {a : Name} {fs' : FNode}
    (h : removeFile (FNode.dir cs) [a] = some fs') :
    fs' = FNode.dir (removeE cs a) ∧
      ∃ nd, lookupE cs a = some nd ∧ isDirN nd = false := by
  simp only [removeFile] at h
  cases hl : lookupE cs a with
  | none => rw [hl] at h; cases h
  | some nd =>
      rw [hl] at h
      cases nd with
      | dir cs' => cases h
      | file c =>
          simp only [Option.some.injEq] at h
          exact ⟨h.symm, _, rfl, rfl⟩
      | symlink t =>
          simp only [Option.some.injEq] at h
          exact ⟨h.symm, _, rfl, rfl⟩
      | other =>
          simp only [Option.some.injEq] at h
          exact ⟨h.symm, _, rfl, rfl⟩

theorem removeFile_fileAt {p : List Name} :
    ∀ {fs fs' : FNode}, removeFile fs p = some fs' →
    ∀ q, fileAt fs' q = if q = p then none else fileAt fs q := by
  induction p with
  | nil => intro fs fs' h q; simp [removeFile] at h
  | cons a p₁ ih =>
      intro fs fs' h q
      cases fs with
      | file c => cases p₁ <;> simp [removeFile] at h
      | symlink t => cases p₁ <;> simp [removeFile] at h
      | other => cases p₁ <;> simp [removeFile] at h
      | dir cs =>
        cases p₁ with
        | nil =>
            obtain ⟨rfl, nd, hl, hnd⟩ := removeFile_base h
            cases q with
            | nil => simp [fileAt_dir_nil]
            | cons b q' =>
                by_cases hab : a = b
                · subst hab
                  rw [fileAt_dir_cons_none
                      (by rw [lookupE_removeE, if_pos rfl]) q']
                  cases q' with
                  | nil => simp
                  | cons x xs =>
                      rw [if_neg (by simp), fileAt_dir_cons_some hl (x :: xs),
                        fileAt_of_not_dir hnd (by simp)]
                · have hcg : lookupE (removeE cs a) b = lookupE cs b := by
                    rw [lookupE_removeE, if_neg hab]
                  rw [fileAt_dir_cons_congr hcg q',
                    if_neg (by simp [List.cons_eq_cons]; intro h'; exact absurd h'.symm hab)]
        | cons b p'' =>
            simp only [removeFile] at h
            cases hl : lookupE cs a with
            | none => rw [hl] at h; cases h
            | some c =>
                rw [hl] at h
                simp only [Option.map_eq_some'] at h
                obtain ⟨c', hc', rfl⟩ := h
                cases q with
                | nil => simp [fileAt_dir_nil]
                | cons x q' =>
                    by_cases hxa : a = x
                    · subst hxa
                      rw [fileAt_dir_cons_some (lookupE_replaceE_self (by simp [hl]) c') q',
                        fileAt_dir_cons_some hl q', ih hc' q']
                      by_cases hq : q' = b :: p''
                      · simp [hq]
                      · simp [hq]
                    · rw [fileAt_dir_cons_congr
                          (lookupE_replaceE_other (by simp [hl]) hxa c') q',
                        if_neg (by simp [List.cons_eq_cons]; intro h'; exact absurd h'.symm hxa)]

theorem removeFile_kindAt {p : List Name} :
    ∀ {fs fs' : FNode}, removeFile fs p = some fs' →
    ∀ q, kindAt fs' q = if q = p then none else kindAt fs q := by
  induction p with
  | nil => intro fs fs' h q; simp [removeFile] at h
  | cons a p₁ ih =>
      intro fs fs' h q
      cases fs with
      | file c => cases p₁ <;> simp [removeFile] at h
      | symlink t => cases p₁ <;> simp [removeFile] at h
      | other => cases p₁ <;> simp [removeFile] at h
      | dir cs =>
        cases p₁ with
        | nil =>
            obtain ⟨rfl, nd, hl, hnd⟩ := removeFile_base h
            cases q with
            | nil => simp [kindAt_dir_nil]
            | cons b q' =>
                by_cases hab : a = b
                · subst hab
                  rw [kindAt_dir_cons_none
                      (by rw [lookupE_removeE, if_pos rfl]) q']
                  cases q' with
                  | nil => simp
                  | cons x xs =>
                      rw [if_neg (by simp), kindAt_dir_cons_some hl (x :: xs),
                        kindAt_of_not_dir hnd (by simp)]
                · have hcg : lookupE (removeE cs a) b = lookupE cs b := by
                    rw [lookupE_removeE, if_neg hab]
                  rw [kindAt_dir_cons_congr hcg q',
                    if_neg (by simp [List.cons_eq_cons]; intro h'; exact absurd h'.symm hab)]
        | cons b p'' =>
            simp only [removeFile] at h
            cases hl : lookupE cs a with
            | none => rw [hl] at h; cases h
            | some c =>
                rw [hl] at h
                simp only [Option.map_eq_some'] at h
                obtain ⟨c', hc', rfl⟩ := h
                cases q with
                | nil => simp [kindAt_dir_nil]
                | cons x q' =>
                    by_cases hxa : a = x
                    · subst hxa
                      rw [kindAt_dir_cons_some (lookupE_replaceE_self (by simp [hl]) c') q',
                        kindAt_dir_cons_some hl q', ih hc' q']
                      by_cases hq : q' = b :: p''
                      · simp [hq]
                      · simp [hq]
                    · rw [kindAt_dir_cons_congr
                          (lookupE_replaceE_other (by simp [hl]) hxa c') q',
                        if_neg (by simp [List.cons_eq_cons]; intro h'; exact absurd h'.symm hxa)]

theorem removeFile_out {p : List Name} :
    ∀ {fs fs' : FNode}, removeFile fs p = some fs' →
    ∀ q, ¬ startsWith q p = true → ¬ startsWith p q = true →
      nodeAt fs' q = nodeAt fs q := by
  induction p with
  | nil => intro fs fs' h q _ _; simp [removeFile] at h
  | cons a p₁ ih =>
      intro fs fs' h q hqp hpq
      cases fs with
      | file c => cases p₁ <;> simp [removeFile] at h
      | symlink t => cases p₁ <;> simp [removeFile] at h
      | other => cases p₁ <;> simp [removeFile] at h
      | dir cs =>
        cases q with
        | nil => exact absurd rfl hqp
        | cons b q' =>
          by_cases hab : a = b
          · subst hab
            have hqp' : ¬ startsWith q' p₁ = true := fun hs =>
              hqp (by simp [startsWith, hs])
            have hpq' : ¬ startsWith p₁ q' = true := fun hs =>
              hpq (by simp [startsWith, hs])
            cases p₁ with
            | nil => exact absurd rfl hpq'
            | cons x p'' =>
                simp only [removeFile] at h
                cases hl : lookupE cs a with
                | none => rw [hl] at h; cases h
                | some c =>
                    rw [hl] at h
                    simp only [Option.map_eq_some'] at h
                    obtain ⟨c', hc', rfl⟩ := h
                    rw [nodeAt_dir_cons_some (lookupE_replaceE_self (by simp [hl]) c') q',
                      nodeAt_dir_cons_some hl q']
                    exact ih hc' q' hqp' hpq'
          · cases p₁ with
            | nil =>
                obtain ⟨rfl, nd, hl, hnd⟩ := removeFile_base h
                exact nodeAt_dir_cons_congr (by rw [lookupE_removeE, if_neg hab]) q'
            | cons x p'' =>
                simp only [removeFile] at h
                cases hl : lookupE cs a with
                | none => rw [hl] at h; cases h
                | some c =>
                    rw [hl] at h
                    simp only [Option.map_eq_some'] at h
                    obtain ⟨c', hc', rfl⟩ := h
                    exact nodeAt_dir_cons_congr
                      (lookupE_replaceE_other (by simp [hl]) hab c') q'

/-! ### writeFile lemmas -/

theorem lookupE_appendE_ne {cs : Entries} {a b : Name} (hab : a ≠ b)
    (m : FNode) : lookupE (appendE cs a m) b = lookupE cs b := by
  rw [lookupE_appendE]
  cases lookupE cs b with
  | some v => rfl
  | none => simp [hab]

/-- Success of `writeFile` at `[a]` pins down the result: either the slot
held a non-directory and is replaced, or it was free and is appended. -/
theorem writeFile_base {cs : Entries} {a : Name} {c : List Nat} {fs' : FNode}
    (h : writeFile (FNode.dir cs) [a] c = some fs') :
    (fs' = FNode.dir (replaceE cs a (.file c)) ∧
      ∃ nd, lookupE cs a = some nd ∧ isDirN nd = false) ∨
    (fs' = FNode.dir (appendE cs a (.file c)) ∧ lookupE cs a = none) := by
  simp only [writeFile] at h
  cases hl : lookupE cs a with
  | none =>
      rw [hl] at h
      simp only [Option.some.injEq] at h
      exact Or.inr ⟨h.symm, rfl⟩
  | some nd =>
      rw [hl] at h
      cases nd with
      | dir cs' => cases h
      | file cc =>
          simp only [Option.some.injEq] at h
          exact Or.inl ⟨h.symm, _, rfl, rfl⟩
      | symlink t =>
          simp only [Option.some.injEq] at h
          exact Or.inl ⟨h.symm, _, rfl, rfl⟩
      | other =>
          simp only [Option.some.injEq] at h
          exact Or.inl ⟨h.symm, _, rfl, rfl⟩

theorem writeFile_fileAt {p : List Name} {c : List Nat} :
    ∀ {fs fs' : FNode}, writeFile fs p c = some fs' →
    ∀ q, fileAt fs' q = if q = p then some c else fileAt fs q := by
  induction p with
  | nil => intro fs fs' h q; simp [writeFile] at h
  | cons a p₁ ih =>
      intro fs fs' h q
      cases fs with
      | file cc => cases p₁ <;> simp [writeFile] at h
      | symlink t => cases p₁ <;> simp [writeFile] at h
      | other => cases p₁ <;> simp [writeFile] at h
      | dir cs =>
        cases p₁ with
        | nil =>
            rcases writeFile_base h with ⟨rfl, nd, hl, hnd⟩ | ⟨rfl, hl⟩
            · cases q with
              | nil => simp [fileAt_dir_nil]
              | cons b q' =>
                  by_cases hab : a = b
                  · subst hab
                    rw [fileAt_dir_cons_some (lookupE_replaceE_self (by simp [hl]) _) q']
                    cases q' with
                    | nil => simp [fileAt, nodeAt]
                    | cons x xs =>
                        rw [if_neg (by simp), fileAt_dir_cons_some hl (x :: xs),
                          fileAt_of_not_dir hnd (by simp),
                          fileAt_of_not_dir (by simp [isDirN]) (by simp)]
                  · have hcg : lookupE (replaceE cs a (FNode.file c)) b = lookupE cs b :=
                      lookupE_replaceE_other (by simp [hl]) hab _
                    rw [fileAt_dir_cons_congr hcg q',
                      if_neg (by simp [List.cons_eq_cons]; intro h'; exact absurd h'.symm hab)]
            · cases q with
              | nil => simp [fileAt_dir_nil]
              | cons b q' =>
                  by_cases hab : a = b
                  · subst hab
                    rw [fileAt_dir_cons_some (lookupE_appendE_self hl _) q']
                    cases q' with
                    | nil => simp [fileAt, nodeAt]
                    | cons x xs =>
                        rw [if_neg (by simp), fileAt_dir_cons_none hl (x :: xs),
                          fileAt_of_not_dir (by simp [isDirN]) (by simp)]
                  · have hcg : lookupE (appendE cs a (FNode.file c)) b = lookupE cs b :=
                      lookupE_appendE_ne hab _
                    rw [fileAt_dir_cons_congr hcg q',
                      if_neg (by simp [List.cons_eq_cons]; intro h'; exact absurd h'.symm hab)]
        | cons b p'' =>
            simp only [writeFile] at h
            cases hl : lookupE cs a with
            | none => rw [hl] at h; cases h
            | some ch =>
                rw [hl] at h
                simp only [Option.map_eq_some'] at h
                obtain ⟨c', hc', rfl⟩ := h
                cases q with
                | nil => simp [fileAt_dir_nil]
                | cons x q' =>
                    by_cases hxa : a = x
                    · subst hxa
                      rw [fileAt_dir_cons_some (lookupE_replaceE_self (by simp [hl]) c') q',
                        fileAt_dir_cons_some hl q', ih hc' q']
                      by_cases hq : q' = b :: p''
                      · simp [hq]
                      · simp [hq]
                    · have hcg : lookupE (replaceE cs a c') x = lookupE cs x :=
                        lookupE_replaceE_other (by simp [hl]) hxa c'
                      rw [fileAt_dir_cons_congr hcg q',
                        if_neg (by simp [List.cons_eq_cons]; intro h'; exact absurd h'.symm hxa)]

theorem writeFile_kindAt {p : List Name} {c : List Nat} :
    ∀ {fs fs' : FNode}, writeFile fs p c = some fs' →
    ∀ q, kindAt fs' q = if q = p then some EKind.file else kindAt fs q := by
  induction p with
  | nil => intro fs fs' h q; simp [writeFile] at h
  | cons a p₁ ih =>
      intro fs fs' h q
      cases fs with
      | file cc => cases p₁ <;> simp [writeFile] at h
      | symlink t => cases p₁ <;> simp [writeFile] at h
      | other => cases p₁ <;> simp [writeFile] at h
      | dir cs =>
        cases p₁ with
        | nil =>
            rcases writeFile_base h with ⟨rfl, nd, hl, hnd⟩ | ⟨rfl, hl⟩
            · cases q with
              | nil => simp [kindAt_dir_nil]
              | cons b q' =>
                  by_cases hab : a = b
                  · subst hab
                    rw [kindAt_dir_cons_some (lookupE_replaceE_self (by simp [hl]) _) q']
                    cases q' with
                    | nil => simp [kindAt, nodeAt, kindOf]
                    | cons x xs =>
                        rw [if_neg (by simp), kindAt_dir_cons_some hl (x :: xs),
                          kindAt_of_not_dir hnd (by simp),
                          kindAt_of_not_dir (by simp [isDirN]) (by simp)]
                  · have hcg : lookupE (replaceE cs a (FNode.file c)) b = lookupE cs b :=
                      lookupE_replaceE_other (by simp [hl]) hab _
                    rw [kindAt_dir_cons_congr hcg q',
                      if_neg (by simp [List.cons_eq_cons]; intro h'; exact absurd h'.symm hab)]
            · cases q with
              | nil => simp [kindAt_dir_nil]
              | cons b q' =>
                  by_cases hab : a = b
                  · subst hab
                    rw [kindAt_dir_cons_some (lookupE_appendE_self hl _) q']
                    cases q' with
                    | nil => simp [kindAt, nodeAt, kindOf]
                    | cons x xs =>
                        rw [if_neg (by simp), kindAt_dir_cons_none hl (x :: xs),
                          kindAt_of_not_dir (by simp [isDirN]) (by simp)]
                  · have hcg : lookupE (appendE cs a (FNode.file c)) b = lookupE cs b :=
                      lookupE_appendE_ne hab _
                    rw [kindAt_dir_cons_congr hcg q',
                      if_neg (by simp [List.cons_eq_cons]; intro h'; exact absurd h'.symm hab)]
        | cons b p'' =>
            simp only [writeFile] at h
            cases hl : lookupE cs a with
            | none => rw [hl] at h; cases h
            | some ch =>
                rw [hl] at h
                simp only [Option.map_eq_some'] at h
                obtain ⟨c', hc', rfl⟩ := h
                cases q with
                | nil => simp [kindAt_dir_nil]
                | cons x q' =>
                    by_cases hxa : a = x
                    · subst hxa
                      rw [kindAt_dir_cons_some (lookupE_replaceE_self (by simp [hl]) c') q',
                        kindAt_dir_cons_some hl q', ih hc' q']
                      by_cases hq : q' = b :: p''
                      · simp [hq]
                      · simp [hq]
                    · have hcg : lookupE (replaceE cs a c') x = lookupE cs x :=
                        lookupE_replaceE_other (by simp [hl]) hxa c'
                      rw [kindAt_dir_cons_congr hcg q',
                        if_neg (by simp [List.cons_eq_cons]; intro h'; exact absurd h'.symm hxa)]

theorem writeFile_out {p : List Name} {c : List Nat} :
    ∀ {fs fs' : FNode}, writeFile fs p c = some fs' →
    ∀ q, ¬ startsWith q p = true → ¬ startsWith p q = true →
      nodeAt fs' q = nodeAt fs q := by
  induction p with
  | nil => intro fs fs' h q _ _; simp [writeFile] at h
  | cons a p₁ ih =>
      intro fs fs' h q hqp hpq
      cases fs with
      | file cc => cases p₁ <;> simp [writeFile] at h
      | symlink t => cases p₁ <;> simp [writeFile] at h
      | other => cases p₁ <;> simp [writeFile] at h
      | dir cs =>
        cases q with
        | nil => exact absurd rfl hqp
        | cons b q' =>
          by_cases hab : a = b
          · subst hab
            have hqp' : ¬ startsWith q' p₁ = true := fun hs =>
              hqp (by simp [startsWith, hs])
            have hpq' : ¬ startsWith p₁ q' = true := fun hs =>
              hpq (by simp [startsWith, hs])
            cases p₁ with
            | nil => exact absurd rfl hpq'
            | cons x p'' =>
                simp only [writeFile] at h
                cases hl : lookupE cs a with
                | none => rw [hl] at h; cases h
                | some ch =>
                    rw [hl] at h
                    simp only [Option.map_eq_some'] at h
                    obtain ⟨c', hc', rfl⟩ := h
                    rw [nodeAt_dir_cons_some (lookupE_replaceE_self (by simp [hl]) c') q',
                      nodeAt_dir_cons_some hl q']
                    exact ih hc' q' hqp' hpq'
          · cases p₁ with
            | nil =>
                rcases writeFile_base h with ⟨rfl, nd, hl, hnd⟩ | ⟨rfl, hl⟩
                · exact nodeAt_dir_cons_congr
                    (lookupE_replaceE_other (by simp [hl]) hab _) q'
                · exact nodeAt_dir_cons_congr (lookupE_appendE_ne hab _) q'
            | cons x p'' =>
                simp only [writeFile] at h
                cases hl : lookupE cs a with
                | none => rw [hl] at h; cases h
                | some ch =>
                    rw [hl] at h
                    simp only [Option.map_eq_some'] at h
                    obtain ⟨c', hc', rfl⟩ := h
                    exact nodeAt_dir_cons_congr
                      (lookupE_replaceE_other (by simp [hl]) hab c') q'

/-! ### Well-formed trees: sibling names are distinct (as on a real
filesystem). -/

theorem wfE_cons {a : Name} {n : FNode} {rest : Entries}
    (h : wfE (.cons a n rest) = true) :
    memName a (namesOf rest) = false ∧ wfN n = true ∧ wfE rest = true := by
  have h' : (memName a (namesOf rest) = false ∧ wfN n = true) ∧ wfE rest = true := by
    simpa [wfE, Bool.and_eq_true, Bool.not_eq_true'] using h
  exact ⟨h'.1.1, h'.1.2, h'.2⟩

theorem lookupE_mem_names {cs : Entries} {b : Name} {v : FNode}
    (h : lookupE cs b = some v) : memName b (namesOf cs) = true := by
  induction cs using entriesRec with
  | nil => simp [lookupE] at h
  | cons a n rest ih =>
      simp only [lookupE] at h
      by_cases hab : a = b
      · simp [namesOf, memName, hab]
      · rw [if_neg hab] at h
        simp [namesOf, memName, ih h]

theorem wfE_lookup {cs : Entries} {b : Name} {v : FNode}
    (h : lookupE cs b = some v) (hwf : wfE cs = true) : wfN v = true := by
  induction cs using entriesRec with
  | nil => simp [lookupE] at h
  | cons a n rest ih =>
      obtain ⟨_, hn, hrest⟩ := wfE_cons hwf
      simp only [lookupE] at h
      by_cases hab : a = b
      · rw [if_pos hab] at h
        cases h
        exact hn
      · rw [if_neg hab] at h
        exact ih h hrest

theorem wfN_nodeAt {p : List Name} :
    ∀ {fs n : FNode}, nodeAt fs p = some n → wfN fs = true → wfN n = true := by
  induction p with
  | nil =>
      intro fs n h hwf
      rw [nodeAt_nil] at h
      cases h
      exact hwf
  | cons a p ih =>
      intro fs n h hwf
      cases fs with
      | file c => rw [nodeAt_file (by simp)] at h; cases h
      | symlink t => rw [nodeAt_symlink (by simp)] at h; cases h
      | other => rw [nodeAt_other (by simp)] at h; cases h
      | dir cs =>
          cases hl : lookupE cs a with
          | none => rw [nodeAt_dir_cons_none hl p] at h; cases h
          | some c =>
              rw [nodeAt_dir_cons_some hl p] at h
              exact ih h (wfE_lookup hl (by simpa [wfN] using hwf))

/-! ### Walk lemmas -/

theorem startsWith_eq_of_length {w p : List Name} (h : startsWith w p = true)
    (hl : p.length ≤ w.length) : w = p := by
  obtain ⟨r, rfl⟩ := startsWith_eq_true.1 h
  simp at hl
  simp [hl]

mutual
/-- Every entry yielded inside a node strictly extends the accumulator. -/
theorem walk_ext_into : ∀ (n : FNode) (acc : RelPath)
    (ov : Option (List OvGlob)) (p : RelPath) (k : EKind),
    (p, k) ∈ walkInto n acc ov →
    startsWith acc p = true ∧ acc.length < p.length
  | .file c, acc, ov, p, k, h => by simp [walkInto] at h
  | .symlink t, acc, ov, p, k, h => by simp [walkInto] at h
  | .other, acc, ov, p, k, h => by simp [walkInto] at h
  | .dir cs, acc, ov, p, k, h =>
      walk_ext_kids cs acc ov p k (by simpa [walkInto] using h)

theorem walk_ext_kids : ∀ (cs : Entries) (acc : RelPath)
    (ov : Option (List OvGlob)) (p : RelPath) (k : EKind),
    (p, k) ∈ walkKids cs acc ov →
    startsWith acc p = true ∧ acc.length < p.length
  | .nil, acc, ov, p, k, h => by simp [walkKids] at h
  | .cons a n rest, acc, ov, p, k, h => by
      simp only [walkKids, List.mem_append] at h
      rcases h with h | h
      · by_cases hig : ovDecide ov (acc ++ [a]) (isDirN n) = OvMatch.ignore
        · simp [hig] at h
        · rw [if_neg hig] at h
          rcases List.mem_cons.1 h with h | h
          · have hp : p = acc ++ [a] := (Prod.ext_iff.1 h).1
            subst hp
            exact ⟨startsWith_append acc [a], by simp⟩
          · have h2 := walk_ext_into n (acc ++ [a]) ov p k h
            refine ⟨startsWith_trans (startsWith_append acc [a]) h2.1, ?_⟩
            have h3 := h2.2
            simp at h3
            omega
      · exact walk_ext_kids rest acc ov p k h
end

mutual
/-- Soundness over well-formed trees: a yielded entry names an actual node of
that kind. -/
theorem walk_sound_into : ∀ (n : FNode), wfN n = true →
    ∀ (acc : RelPath) (ov : Option (List OvGlob)) (p : RelPath) (k : EKind),
    (p, k) ∈ walkInto n acc ov →
    ∃ suf, p = acc ++ suf ∧ suf ≠ [] ∧
      ∃ m, nodeAt n suf = some m ∧ kindOf m = k
  | .file c, _, acc, ov, p, k, h => by simp [walkInto] at h
  | .symlink t, _, acc, ov, p, k, h => by simp [walkInto] at h
  | .other, _, acc, ov, p, k, h => by simp [walkInto] at h
  | .dir cs, hwf, acc, ov, p, k, h =>
      walk_sound_kids cs (by simpa [wfN] using hwf) acc ov p k
        (by simpa [walkInto] using h)

theorem walk_sound_kids : ∀ (cs : Entries), wfE cs = true →
    ∀ (acc : RelPath) (ov : Option (List OvGlob)) (p : RelPath) (k : EKind),
    (p, k) ∈ walkKids cs acc ov →
    ∃ suf, p = acc ++ suf ∧ suf ≠ [] ∧
      ∃ m, nodeAt (FNode.dir cs) suf = some m ∧ kindOf m = k
  | .nil, _, acc, ov, p, k, h => by simp [walkKids] at h
  | .cons a n rest, hwf, acc, ov, p, k, h => by
      obtain ⟨hmem, hn, hrest⟩ := wfE_cons hwf
      simp only [walkKids, List.mem_append] at h
      rcases h with h | h
      · by_cases hig : ovDecide ov (acc ++ [a]) (isDirN n) = OvMatch.ignore
        · simp [hig] at h
        · rw [if_neg hig] at h
          rcases List.mem_cons.1 h with h | h
          · obtain ⟨hp, hk⟩ := Prod.ext_iff.1 h
            refine ⟨[a], hp, by simp, n, ?_, hk.symm⟩
            rw [show ([a] : RelPath) = a :: [] from rfl,
              nodeAt_dir_cons_some (show lookupE (.cons a n rest) a = some n by
                simp [lookupE]) [], nodeAt_nil]
          · obtain ⟨suf', hp, hs', m, hm, hk⟩ :=
              walk_sound_into n hn (acc ++ [a]) ov p k h
            refine ⟨a :: suf', by rw [hp, List.append_assoc]; rfl, by simp,
              m, ?_, hk⟩
            rw [nodeAt_dir_cons_some (show lookupE (.cons a n rest) a = some n by
                simp [lookupE]) suf']
            exact hm
      · obtain ⟨suf, hp, hs, m, hm, hk⟩ :=
          walk_sound_kids rest hrest acc ov p k h
        refine ⟨suf, hp, hs, m, ?_, hk⟩
        cases suf with
        | nil => exact absurd rfl hs
        | cons b q =>
            cases hl : lookupE rest b with
            | none => rw [nodeAt_dir_cons_none hl q] at hm; cases hm
            | some v =>
                rw [nodeAt_dir_cons_some hl q] at hm
                have hb : memName b (namesOf rest) = true := lookupE_mem_names hl
                have hab : ¬ a = b := by
                  intro hab
                  rw [hab] at hmem
                  rw [hmem] at hb
                  cases hb
                rw [nodeAt_dir_cons_some (show lookupE (.cons a n rest) b = some v by
                    simp [lookupE, if_neg hab, hl]) q]
                exact hm
end

mutual
/-- Pruning: between the accumulator and a yielded entry, every intermediate
directory was found not ignored by the override matcher. -/
theorem walk_prune_into : ∀ (n : FNode) (acc : RelPath)
    (ov : Option (List OvGlob)) (p : RelPath) (k : EKind),
    (p, k) ∈ walkInto n acc ov →
    ∀ w, startsWith w p = true → acc.length < w.length → w ≠ p →
      ¬ ovDecide ov w true = OvMatch.ignore
  | .file c, acc, ov, p, k, h => by simp [walkInto] at h
  | .symlink t, acc, ov, p, k, h => by simp [walkInto] at h
  | .other, acc, ov, p, k, h => by simp [walkInto] at h
  | .dir cs, acc, ov, p, k, h =>
      walk_prune_kids cs acc ov p k (by simpa [walkInto] using h)

theorem walk_prune_kids : ∀ (cs : Entries) (acc : RelPath)
    (ov : Option (List OvGlob)) (p : RelPath) (k : EKind),
    (p, k) ∈ walkKids cs acc ov →
    ∀ w, startsWith w p = true → acc.length < w.length → w ≠ p →
      ¬ ovDecide ov w true = OvMatch.ignore
  | .nil, acc, ov, p, k, h => by simp [walkKids] at h
  | .cons a n rest, acc, ov, p, k, h => by
      simp only [walkKids, List.mem_append] at h
      rcases h with h | h
      · by_cases hig : ovDecide ov (acc ++ [a]) (isDirN n) = OvMatch.ignore
        · simp [hig] at h
        · rw [if_neg hig] at h
          rcases List.mem_cons.1 h with h | h
          · intro w hw hlen hne
            have hp : p = acc ++ [a] := (Prod.ext_iff.1 h).1
            subst hp
            have h1 := startsWith_length hw
            simp at h1
            have : w = acc ++ [a] :=
              startsWith_eq_of_length hw (by simp; omega)
            exact absurd this hne
          · intro w hw hlen hne
            cases n with
            | file c => simp [walkInto] at h
            | symlink t => simp [walkInto] at h
            | other => simp [walkInto] at h
            | dir cs' =>
                have hext := walk_ext_into (FNode.dir cs') (acc ++ [a]) ov p k h
                by_cases hwl : w.length ≤ acc.length + 1
                · have hw1 : w.length = acc.length + 1 := by omega
                  have hcmp := startsWith_comparable hw hext.1
                  have hweq : w = acc ++ [a] := by
                    rcases hcmp with hc | hc
                    · exact startsWith_eq_of_length hc (by simp; omega)
                    · exact (startsWith_eq_of_length hc (by simp; omega)).symm
                  rw [hweq]
                  simpa [isDirN] using hig
                · exact walk_prune_into (FNode.dir cs') (acc ++ [a]) ov p k h w
                    hw (by simp; omega) hne
      · exact walk_prune_kids rest acc ov p k h
end

/-- Completeness without a matcher: every node below the root is yielded. -/
theorem walk_complete : ∀ (suf : RelPath) (n m : FNode) (acc : RelPath),
    nodeAt n suf = some m → suf ≠ [] →
    (acc ++ suf, kindOf m) ∈ walkInto n acc none := by
  intro suf
  induction suf with
  | nil => intro n m acc h hs; exact absurd rfl hs
  | cons b q ih =>
      intro n m acc h _
      cases n with
      | file c => rw [nodeAt_file (by simp)] at h; cases h
      | symlink t => rw [nodeAt_symlink (by simp)] at h; cases h
      | other => rw [nodeAt_other (by simp)] at h; cases h
      | dir cs =>
          simp only [walkInto]
          induction cs using entriesRec with
          | nil =>
              rw [nodeAt_dir_cons_none (show lookupE Entries.nil b = none from rfl) q] at h
              cases h
          | cons a n' rest ihcs =>
              simp only [walkKids, List.mem_append]
              by_cases hab : a = b
              · subst hab
                rw [nodeAt_dir_cons_some (show lookupE (.cons a n' rest) a = some n' by
                    simp [lookupE]) q] at h
                refine Or.inl ?_
                rw [if_neg (by simp [ovDecide])]
                cases q with
                | nil =>
                    rw [nodeAt_nil] at h
                    cases h
                    exact List.mem_cons.2 (Or.inl rfl)
                | cons x xs =>
                    refine List.mem_cons.2 (Or.inr ?_)
                    have hmem2 := ih n' m (acc ++ [a]) h (by simp)
                    rw [show acc ++ a :: x :: xs = (acc ++ [a]) ++ x :: xs by
                      rw [List.append_assoc]; rfl]
                    exact hmem2
              · have hq : nodeAt (FNode.dir rest) (b :: q) = some m := by
                  cases hl : lookupE rest b with
                  | none =>
                      rw [nodeAt_dir_cons_none (show lookupE (.cons a n' rest) b = none by
                          simp [lookupE, if_neg hab, hl]) q] at h
                      cases h
                  | some v =>
                      rw [nodeAt_dir_cons_some (show lookupE (.cons a n' rest) b = some v by
                          simp [lookupE, if_neg hab, hl]) q] at h
                      rw [nodeAt_dir_cons_some hl q]
                      exact h
                exact Or.inr (ihcs hq)

/-! ### Clone-step lemmas -/

/-- Extensions of the destination root stay incomparable with any path that
is incomparable with the destination root. -/
theorem incomp_ext {q dest : List Name}
    (hqd : ¬ startsWith q dest = true) (hdq : ¬ startsWith dest q = true)
    (x : List Name) :
    ¬ startsWith q (dest ++ x) = true ∧ ¬ startsWith (dest ++ x) q = true := by
  constructor
  · intro h
    rcases startsWith_comparable h (startsWith_append dest x) with h' | h'
    · exact hqd h'
    · exact hdq h'
  · intro h
    exact hdq (startsWith_trans (startsWith_append dest x) h)

theorem removeFile_not_dir {p : List Name} :
    ∀ {fs fs' : FNode}, removeFile fs p = some fs' →
    kindAt fs p ≠ some EKind.dir := by
  induction p with
  | nil => intro fs fs' h; simp [removeFile] at h
  | cons a p₁ ih =>
      intro fs fs' h
      cases fs with
      | file c => cases p₁ <;> simp [removeFile] at h
      | symlink t => cases p₁ <;> simp [removeFile] at h
      | other => cases p₁ <;> simp [removeFile] at h
      | dir cs =>
        cases p₁ with
        | nil =>
            obtain ⟨_, nd, hl, hnd⟩ := removeFile_base h
            rw [kindAt_dir_cons_some hl []]
            cases nd with
            | dir cs' => simp [isDirN] at hnd
            | file c => simp [kindAt, nodeAt_nil, kindOf]
            | symlink t => simp [kindAt, nodeAt_nil, kindOf]
            | other => simp [kindAt, nodeAt_nil, kindOf]
        | cons b p'' =>
            simp only [removeFile] at h
            cases hl : lookupE cs a with
            | none => rw [hl] at h; cases h
            | some c =>
                rw [hl] at h
                simp only [Option.map_eq_some'] at h
                obtain ⟨c', hc', rfl⟩ := h
                rw [kindAt_dir_cons_some hl (b :: p'')]
                exact ih hc'

theorem writeFile_not_dir {p : List Name} {c : List Nat} :
    ∀ {fs fs' : FNode}, writeFile fs p c = some fs' →
    kindAt fs p ≠ some EKind.dir := by
  induction p with
  | nil => intro fs fs' h; simp [writeFile] at h
  | cons a p₁ ih =>
      intro fs fs' h
      cases fs with
      | file cc => cases p₁ <;> simp [writeFile] at h
      | symlink t => cases p₁ <;> simp [writeFile] at h
      | other => cases p₁ <;> simp [writeFile] at h
      | dir cs =>
        cases p₁ with
        | nil =>
            rcases writeFile_base h with ⟨_, nd, hl, hnd⟩ | ⟨_, hl⟩
            · rw [kindAt_dir_cons_some hl []]
              cases nd with
              | dir cs' => simp [isDirN] at hnd
              | file cc => simp [kindAt, nodeAt_nil, kindOf]
              | symlink t => simp [kindAt, nodeAt_nil, kindOf]
              | other => simp [kindAt, nodeAt_nil, kindOf]
            · rw [kindAt_dir_cons_none hl []]
              simp
        | cons b p'' =>
            simp only [writeFile] at h
            cases hl : lookupE cs a with
            | none => rw [hl] at h; cases h
            | some ch =>
                rw [hl] at h
                simp only [Option.map_eq_some'] at h
                obtain ⟨c', hc', rfl⟩ := h
                rw [kindAt_dir_cons_some hl (b :: p'')]
                exact ih hc'

/-- Inversion of a successful file-copy step: the three stages (parent
creation or cache hit, optional overwrite delete, copy) each succeeded. -/
theorem cloneStep_ok_inv {src dest : List Name} {opts : Options} {env : Env}
    {st st' : CState} {e : RelPath × EKind}
    (h1 : e.1 ≠ []) (h2 : e.2 = EKind.file)
    (h : cloneStep src dest opts env st e = (none, st')) :
    ∃ fs1 cd fs2 c fs3,
      st' = (fs3, cd) ∧
      ((fs1 = st.1 ∧ cd = st.2) ∨
        (mkdirAll st.1 (dest ++ e.1.dropLast) = some fs1 ∧
          cd = (dest ++ e.1.dropLast) :: st.2)) ∧
      (fs2 = fs1 ∨ removeFile fs1 (dest ++ e.1) = some fs2) ∧
      fileAt fs2 (src ++ e.1) = some c ∧
      writeFile fs2 (dest ++ e.1) c = some fs3 := by
  rw [cloneStep, if_neg h1, if_pos h2] at h
  dsimp only at h
  have main : ∀ (fs1 : FNode) (cd : List (List Name)),
      (match (if (opts.overwrite && nodeExists fs1 (dest ++ e.1)) = true then
               if dest ++ e.1 ∈ env.removeFailAt then none
               else removeFile fs1 (dest ++ e.1)
             else some fs1) with
       | none => (some Error.io, (fs1, cd))
       | some fs2 =>
           if dest ++ e.1 ∈ env.copyFailAt then
             (some (Error.copy (src ++ e.1) (dest ++ e.1)), (fs2, cd))
           else
             match fileAt fs2 (src ++ e.1) with
             | some c =>
                 match writeFile fs2 (dest ++ e.1) c with
                 | some fs3 => (none, (fs3, cd))
                 | none => (some (Error.copy (src ++ e.1) (dest ++ e.1)), (fs2, cd))
             | none => (some (Error.copy (src ++ e.1) (dest ++ e.1)), (fs2, cd))) =
        (none, st') →
      ∃ fs2 c fs3, st' = (fs3, cd) ∧
        (fs2 = fs1 ∨ removeFile fs1 (dest ++ e.1) = some fs2) ∧
        fileAt fs2 (src ++ e.1) = some c ∧
        writeFile fs2 (dest ++ e.1) c = some fs3 := by
    intro fs1 cd hm
    by_cases ho : (opts.overwrite && nodeExists fs1 (dest ++ e.1)) = true
    · rw [if_pos ho] at hm
      by_cases hrf : (dest ++ e.1) ∈ env.removeFailAt
      · rw [if_pos hrf] at hm; simp at hm
      · rw [if_neg hrf] at hm
        cases hrm : removeFile fs1 (dest ++ e.1) with
        | none => rw [hrm] at hm; simp at hm
        | some fs2 =>
            rw [hrm] at hm
            dsimp only at hm
            by_cases hcf : (dest ++ e.1) ∈ env.copyFailAt
            · rw [if_pos hcf] at hm; simp at hm
            · rw [if_neg hcf] at hm
              cases hrd : fileAt fs2 (src ++ e.1) with
              | none => rw [hrd] at hm; simp at hm
              | some c =>
                  rw [hrd] at hm
                  dsimp only at hm
                  cases hwr : writeFile fs2 (dest ++ e.1) c with
                  | none => rw [hwr] at hm; simp at hm
                  | some fs3 =>
                      rw [hwr] at hm
                      simp only [Prod.mk.injEq, true_and] at hm
                      exact ⟨fs2, c, fs3, hm.symm, Or.inr rfl, hrd, hwr⟩
    · rw [if_neg ho] at hm
      dsimp only at hm
      by_cases hcf : (dest ++ e.1) ∈ env.copyFailAt
      · rw [if_pos hcf] at hm; simp at hm
      · rw [if_neg hcf] at hm
        cases hrd : fileAt fs1 (src ++ e.1) with
        | none => rw [hrd] at hm; simp at hm
        | some c =>
            rw [hrd] at hm
            dsimp only at hm
            cases hwr : writeFile fs1 (dest ++ e.1) c with
            | none => rw [hwr] at hm; simp at hm
            | some fs3 =>
                rw [hwr] at hm
                simp only [Prod.mk.injEq, true_and] at hm
                exact ⟨fs1, c, fs3, hm.symm, Or.inl rfl, hrd, hwr⟩
  by_cases hc : (dest ++ e.1.dropLast) ∈ st.2
  · rw [if_pos hc] at h
    dsimp only at h
    obtain ⟨fs2, c, fs3, hst', hrm, hrd, hwr⟩ := main st.1 st.2 h
    exact ⟨st.1, st.2, fs2, c, fs3, hst', Or.inl ⟨rfl, rfl⟩, hrm, hrd, hwr⟩
  · rw [if_neg hc] at h
    cases hmk : mkdirAll st.1 (dest ++ e.1.dropLast) with
    | none => rw [hmk] at h; simp at h
    | some fs1 =>
        rw [hmk] at h
        dsimp only at h
        obtain ⟨fs2, c, fs3, hst', hrm, hrd, hwr⟩ :=
          main fs1 ((dest ++ e.1.dropLast) :: st.2) h
        exact ⟨fs1, (dest ++ e.1.dropLast) :: st.2, fs2, c, fs3, hst',
          Or.inr ⟨rfl, rfl⟩, hrm, hrd, hwr⟩

/-- Extensions of incomparable roots are distinct paths. -/
theorem ext_ne {s d : List Name}
    (hsd : ¬ startsWith s d = true) (hds : ¬ startsWith d s = true)
    (a b : List Name) : s ++ a ≠ d ++ b := by
  intro h
  have hsw : startsWith (d ++ b) (s ++ a) = true := by
    rw [h]
    exact startsWith_refl _
  exact startsWith_disjoint hsd hds hsw

/-- A successful walk-loop step: (A) preserves everything incomparable with
the destination root, (B) rewrites exactly the copied file from the source,
(C) preserves directories, (D) only creates parent directories and the copied
file, (E) a copied entry had readable source content. -/
theorem cloneStep_ok {src dest : List Name} {opts : Options} {env : Env}
    (hsd : ¬ startsWith src dest = true) (hds : ¬ startsWith dest src = true)
    {st st' : CState} {e : RelPath × EKind}
    (h : cloneStep src dest opts env st e = (none, st')) :
    (∀ q, ¬ startsWith q dest = true → ¬ startsWith dest q = true →
        nodeAt st'.1 q = nodeAt st.1 q) ∧
    (∀ rel, fileAt st'.1 (dest ++ rel) =
        if e = (rel, EKind.file) ∧ rel ≠ [] then fileAt st.1 (src ++ rel)
        else fileAt st.1 (dest ++ rel)) ∧
    (∀ q, kindAt st.1 q = some EKind.dir → kindAt st'.1 q = some EKind.dir) ∧
    (∀ q, kindAt st'.1 q = kindAt st.1 q ∨
        (e.2 = EKind.file ∧ e.1 ≠ [] ∧
          ((kindAt st'.1 q = some EKind.dir ∧
            startsWith q (dest ++ e.1.dropLast) = true) ∨
           (q = dest ++ e.1 ∧ kindAt st'.1 q = some EKind.file)))) ∧
    (e.2 = EKind.file → e.1 ≠ [] → (fileAt st.1 (src ++ e.1)).isSome) := by
  by_cases h1 : e.1 = []
  · rw [cloneStep, if_pos h1] at h
    simp only [Prod.mk.injEq, true_and] at h
    subst h
    refine ⟨fun q _ _ => rfl, fun rel => ?_, fun q hd => hd, fun q => Or.inl rfl,
      fun _ hne => absurd h1 hne⟩
    rw [if_neg ?_]
    rintro ⟨he, hne⟩
    exact hne ((congrArg Prod.fst he).symm.trans h1)
  · by_cases h2 : e.2 = EKind.file
    swap
    · rw [cloneStep, if_neg h1, if_neg h2] at h
      simp only [Prod.mk.injEq, true_and] at h
      subst h
      refine ⟨fun q _ _ => rfl, fun rel => ?_, fun q hd => hd, fun q => Or.inl rfl,
        fun hf _ => absurd hf h2⟩
      rw [if_neg ?_]
      rintro ⟨he, hne⟩
      exact h2 (congrArg Prod.snd he)
    · obtain ⟨fs1, cd, fs2, c, fs3, hst', hmk, hrm, hrd, hwr⟩ :=
        cloneStep_ok_inv h1 h2 h
      subst hst'
      -- stage-1 facts
      have f1A : ∀ q, ¬ startsWith q dest = true → ¬ startsWith dest q = true →
          nodeAt fs1 q = nodeAt st.1 q := by
        intro q hqd hdq
        rcases hmk with ⟨rfl, _⟩ | ⟨hm, _⟩
        · rfl
        · obtain ⟨hx, hy⟩ := incomp_ext hqd hdq (e.1.dropLast)
          exact mkdirAll_out hm q hx hy
      have f1file : ∀ q, fileAt fs1 q = fileAt st.1 q := by
        intro q
        rcases hmk with ⟨rfl, _⟩ | ⟨hm, _⟩
        · rfl
        · exact mkdirAll_fileAt hm q
      have f1dir : ∀ q, kindAt st.1 q = some EKind.dir →
          kindAt fs1 q = some EKind.dir := by
        intro q hd
        rcases hmk with ⟨rfl, _⟩ | ⟨hm, _⟩
        · exact hd
        · exact mkdirAll_dir_preserved hm hd
      have f1kind : ∀ q, kindAt fs1 q = kindAt st.1 q ∨
          (kindAt st.1 q = none ∧ kindAt fs1 q = some EKind.dir ∧
            startsWith q (dest ++ e.1.dropLast) = true) := by
        intro q
        rcases hmk with ⟨rfl, _⟩ | ⟨hm, _⟩
        · exact Or.inl rfl
        · exact mkdirAll_kindAt hm q
      -- stage-2 facts
      have f2A : ∀ q, ¬ startsWith q dest = true → ¬ startsWith dest q = true →
          nodeAt fs2 q = nodeAt fs1 q := by
        intro q hqd hdq
        rcases hrm with rfl | hr
        · rfl
        · obtain ⟨hx, hy⟩ := incomp_ext hqd hdq e.1
          exact removeFile_out hr q hx hy
      have f2file : ∀ q, q ≠ dest ++ e.1 → fileAt fs2 q = fileAt fs1 q := by
        intro q hq
        rcases hrm with rfl | hr
        · rfl
        · rw [removeFile_fileAt hr q, if_neg hq]
      have f2kind : ∀ q, q ≠ dest ++ e.1 → kindAt fs2 q = kindAt fs1 q := by
        intro q hq
        rcases hrm with rfl | hr
        · rfl
        · rw [removeFile_kindAt hr q, if_neg hq]
      have f2dir : ∀ q, kindAt fs1 q = some EKind.dir →
          kindAt fs2 q = some EKind.dir := by
        intro q hd
        rcases hrm with rfl | hr
        · exact hd
        · have hq : q ≠ dest ++ e.1 := by
            intro hq
            exact removeFile_not_dir hr (hq ▸ hd)
          rw [f2kind q hq]
          exact hd
      -- stage-3 facts
      have f3A : ∀ q, ¬ startsWith q dest = true → ¬ startsWith dest q = true →
          nodeAt fs3 q = nodeAt fs2 q := by
        intro q hqd hdq
        obtain ⟨hx, hy⟩ := incomp_ext hqd hdq e.1
        exact writeFile_out hwr q hx hy
      have f3file := writeFile_fileAt hwr
      have f3kind := writeFile_kindAt hwr
      have f3dir : ∀ q, kindAt fs2 q = some EKind.dir →
          kindAt fs3 q = some EKind.dir := by
        intro q hd
        have hq : q ≠ dest ++ e.1 := by
          intro hq
          exact writeFile_not_dir hwr (hq ▸ hd)
        rw [f3kind q, if_neg hq]
        exact hd
      -- source-side read is stable
      have hsrcne : ∀ x, src ++ x ≠ dest ++ e.1 := fun x => ext_ne hsd hds x e.1
      have hread : fileAt st.1 (src ++ e.1) = some c := by
        rw [← f1file (src ++ e.1), ← f2file (src ++ e.1) (hsrcne e.1)]
        exact hrd
      refine ⟨?_, ?_, ?_, ?_, ?_⟩
      · intro q hqd hdq
        rw [show ((fs3, cd) : CState).1 = fs3 from rfl, f3A q hqd hdq,
          f2A q hqd hdq, f1A q hqd hdq]
      · intro rel
        by_cases hrel : rel = e.1
        · subst hrel
          rw [show ((fs3, cd) : CState).1 = fs3 from rfl, f3file (dest ++ e.1),
            if_pos rfl, if_pos ⟨by rw [← h2], h1⟩, hread]
        · have hne : dest ++ rel ≠ dest ++ e.1 := by
            intro hq
            exact hrel (List.append_cancel_left hq)
          rw [show ((fs3, cd) : CState).1 = fs3 from rfl, f3file (dest ++ rel),
            if_neg hne, f2file _ hne, f1file, if_neg ?_]
          rintro ⟨he, _⟩
          exact hrel ((congrArg Prod.fst he).symm)
      · intro q hd
        exact f3dir q (f2dir q (f1dir q hd))
      · intro q
        by_cases hqt : q = dest ++ e.1
        · exact Or.inr ⟨h2, h1, Or.inr ⟨hqt, by
            rw [show ((fs3, cd) : CState).1 = fs3 from rfl, f3kind q, if_pos hqt]⟩⟩
        · have hk3 : kindAt fs3 q = kindAt fs1 q := by
            rw [f3kind q, if_neg hqt, f2kind q hqt]
          rcases f1kind q with hk | ⟨_, hdir, hsw⟩
          · exact Or.inl (by rw [show ((fs3, cd) : CState).1 = fs3 from rfl, hk3, hk])
          · exact Or.inr ⟨h2, h1, Or.inl ⟨by
              rw [show ((fs3, cd) : CState).1 = fs3 from rfl, hk3, hdir], hsw⟩⟩
      · intro _ _
        rw [hread]
        rfl

theorem fileAt_congr {f1 f2 : FNode} {q : List Name}
    (h : nodeAt f1 q = nodeAt f2 q) : fileAt f1 q = fileAt f2 q := by
  simp [fileAt, h]

theorem kindAt_congr {f1 f2 : FNode} {q : List Name}
    (h : nodeAt f1 q = nodeAt f2 q) : kindAt f1 q = kindAt f2 q := by
  simp [kindAt, h]

theorem copied_nil (rel : RelPath) : ¬ copied [] rel := by
  rintro ⟨_, hm⟩
  cases hm

theorem copied_cons {e : RelPath × EKind} {es : List (RelPath × EKind)}
    {rel : RelPath} :
    copied (e :: es) rel ↔
      (rel ≠ [] ∧ (rel, EKind.file) = e) ∨ copied es rel := by
  unfold copied
  rw [List.mem_cons]
  tauto

/-- Master invariant of the walk loop: a successful run (A) preserves
everything incomparable with the destination root, (B) maps every copied
relative path to the source content and leaves all other destination paths
unchanged, (C) preserves directories, (D) creates only parent-chain
directories and copied files under the destination, and (E) every copied
entry had readable source content at loop start. -/
theorem processEntries_ok {src dest : List Name} {opts : Options} {env : Env}
    (hsd : ¬ startsWith src dest = true) (hds : ¬ startsWith dest src = true) :
    ∀ (es : List (RelPath × EKind)) (st st' : CState),
    processEntries src dest opts env es st = (none, st') →
    (∀ q, ¬ startsWith q dest = true → ¬ startsWith dest q = true →
        nodeAt st'.1 q = nodeAt st.1 q) ∧
    (∀ rel, fileAt st'.1 (dest ++ rel) =
        if copied es rel then fileAt st.1 (src ++ rel)
        else fileAt st.1 (dest ++ rel)) ∧
    (∀ q, kindAt st.1 q = some EKind.dir → kindAt st'.1 q = some EKind.dir) ∧
    (∀ q, kindAt st'.1 q = kindAt st.1 q ∨
        (∃ rel, copied es rel ∧
          ((kindAt st'.1 q = some EKind.dir ∧
            startsWith q (dest ++ rel.dropLast) = true) ∨
           (q = dest ++ rel ∧ kindAt st'.1 q = some EKind.file)))) ∧
    (∀ rel, copied es rel → (fileAt st.1 (src ++ rel)).isSome) := by
  intro es
  induction es with
  | nil =>
      intro st st' h
      simp only [processEntries, Prod.mk.injEq, true_and] at h
      subst h
      exact ⟨fun q _ _ => rfl,
        fun rel => by rw [if_neg (copied_nil rel)],
        fun q hd => hd, fun q => Or.inl rfl,
        fun rel hc => absurd hc (copied_nil rel)⟩
  | cons e es ih =>
      intro st st' h
      rw [processEntries] at h
      cases hstep : cloneStep src dest opts env st e with
      | mk r1 st1 =>
          rw [hstep] at h
          cases r1 with
          | some err => simp at h
          | none =>
              dsimp only at h
              obtain ⟨iA, iB, iC, iD, iE⟩ := ih st1 st' h
              obtain ⟨sA, sB, sC, sD, sE⟩ := cloneStep_ok hsd hds hstep
              have hsrcInc : ∀ x : List Name,
                  ¬ startsWith (src ++ x) dest = true ∧
                  ¬ startsWith dest (src ++ x) = true := by
                intro x
                obtain ⟨h1', h2'⟩ := incomp_ext hds hsd x
                exact ⟨h2', h1'⟩
              have hsrcStable : ∀ x : List Name,
                  fileAt st1.1 (src ++ x) = fileAt st.1 (src ++ x) := by
                intro x
                exact fileAt_congr (sA (src ++ x) (hsrcInc x).1 (hsrcInc x).2)
              refine ⟨?_, ?_, ?_, ?_, ?_⟩
              · intro q hqd hdq
                rw [iA q hqd hdq, sA q hqd hdq]
              · intro rel
                by_cases hc : copied es rel
                · rw [iB rel, if_pos hc, hsrcStable rel,
                    if_pos (copied_cons.2 (Or.inr hc))]
                · rw [iB rel, if_neg hc, sB rel]
                  by_cases hce : e = (rel, EKind.file) ∧ rel ≠ []
                  · rw [if_pos hce, if_pos (copied_cons.2 (Or.inl ⟨hce.2, hce.1.symm⟩))]
                  · rw [if_neg hce, if_neg ?_]
                    intro hcc
                    rcases copied_cons.1 hcc with ⟨hne, he⟩ | hcs
                    · exact hce ⟨he.symm, hne⟩
                    · exact hc hcs
              · intro q hd
                exact iC q (sC q hd)
              · intro q
                rcases iD q with hk | ⟨rel, hcrel, halt⟩
                · rcases sD q with hk' | ⟨hef, hne, halt'⟩
                  · exact Or.inl (hk.trans hk')
                  · refine Or.inr ⟨e.1, copied_cons.2 (Or.inl ⟨hne, ?_⟩), ?_⟩
                    · rw [← hef]
                    · rcases halt' with ⟨hdir, hsw⟩ | ⟨hq, hfile⟩
                      · exact Or.inl ⟨hk.trans hdir, hsw⟩
                      · exact Or.inr ⟨hq, hk.trans hfile⟩
                · exact Or.inr ⟨rel, copied_cons.2 (Or.inr hcrel), halt⟩
              · intro rel hcc
                rcases copied_cons.1 hcc with ⟨hne, he⟩ | hcs
                · have he1 : e.1 = rel := by rw [← he]
                  have h5 := sE (by rw [← he]) (by rw [he1]; exact hne)
                  rwa [he1] at h5
                · have := iE rel hcs
                  rwa [hsrcStable rel] at this

/-- Inversion of a successful `cloneTree` run: the validations passed, the
destination was created when missing, the matcher compiled, and the walk loop
ran to completion. -/
theorem cloneTree_ok_inv {fs : FNode} {src dest : List Name} {opts : Options}
    {env : Env} {fs' : FNode}
    (h : cloneTree fs src dest opts env = (none, fs')) :
    nodeExists fs src = true ∧ isDirAt fs src = true ∧
    ∃ fs1 ov n st',
      ((nodeExists fs dest = false ∧ mkdirAll fs dest = some fs1) ∨
        (nodeExists fs dest = true ∧ fs1 = fs)) ∧
      cloneOverrides opts = .ok ov ∧
      nodeAt fs1 src = some n ∧
      processEntries src dest opts env (walkAll n ov) (fs1, [dest]) =
        (none, st') ∧
      fs' = st'.1 := by
  rw [cloneTree] at h
  by_cases h1 : nodeExists fs src = true
  swap
  · rw [if_pos (by simpa using h1)] at h
    simp at h
  · rw [if_neg (not_not_intro h1)] at h
    by_cases h2 : isDirAt fs src = true
    swap
    · rw [if_pos (by simpa using h2)] at h
      simp at h
    · rw [if_neg (not_not_intro h2)] at h
      by_cases h3 : (nodeExists fs dest && !opts.overwrite) = true
      · rw [if_pos h3] at h
        simp at h
      · rw [if_neg h3] at h
        refine ⟨h1, h2, ?_⟩
        by_cases hdest : nodeExists fs dest = true
        · rw [if_neg (not_not_intro hdest)] at h
          dsimp only at h
          cases hov : cloneOverrides opts with
          | error e2 => rw [hov] at h; simp at h
          | ok ov =>
              rw [hov] at h
              dsimp only at h
              cases hn : nodeAt fs src with
              | none => rw [hn] at h; simp at h
              | some n =>
                  rw [hn] at h
                  dsimp only at h
                  cases hpe : processEntries src dest opts env
                      (walkAll n ov) (fs, [dest]) with
                  | mk r1 st' =>
                      rw [hpe] at h
                      cases r1 with
                      | some err => simp at h
                      | none =>
                          simp only [Prod.mk.injEq, true_and] at h
                          exact ⟨fs, ov, n, st', Or.inr ⟨hdest, rfl⟩, rfl, hn,
                            hpe, h.symm⟩
        · rw [if_pos (by simpa using hdest)] at h
          cases hmk : mkdirAll fs dest with
          | none => rw [hmk] at h; simp at h
          | some fs1 =>
              rw [hmk] at h
              dsimp only at h
              cases hov : cloneOverrides opts with
              | error e2 => rw [hov] at h; simp at h
              | ok ov =>
                  rw [hov] at h
                  dsimp only at h
                  cases hn : nodeAt fs1 src with
                  | none => rw [hn] at h; simp at h
                  | some n =>
                      rw [hn] at h
                      dsimp only at h
                      cases hpe : processEntries src dest opts env
                          (walkAll n ov) (fs1, [dest]) with
                      | mk r1 st' =>
                          rw [hpe] at h
                          cases r1 with
                          | some err => simp at h
                          | none =>
                              simp only [Prod.mk.injEq, true_and] at h
                              exact ⟨fs1, ov, n, st',
                                Or.inl ⟨by simpa using hdest, rfl⟩, rfl, hn,
                                hpe, h.symm⟩

/-! ### Bridge lemmas for the claim theorems -/

theorem nodeExists_false {fs : FNode} {p : List Name}
    (h : nodeExists fs p = false) : nodeAt fs p = none := by
  unfold nodeExists at h
  cases hd : nodeAt fs p with
  | none => rfl
  | some m => rw [hd] at h; simp at h

theorem nodeAt_fresh_ext {fs : FNode} {dest : List Name}
    (h : nodeAt fs dest = none) (rel : List Name) :
    nodeAt fs (dest ++ rel) = none := by
  rw [nodeAt_append, h]
  rfl

theorem fileAt_eq_some {fs : FNode} {p : List Name} {c : List Nat} :
    fileAt fs p = some c ↔ nodeAt fs p = some (FNode.file c) := by
  unfold fileAt
  cases h : nodeAt fs p with
  | none => simp
  | some m => cases m <;> simp

theorem kindAt_of_fileAt {fs : FNode} {p : List Name} {c : List Nat}
    (h : fileAt fs p = some c) : kindAt fs p = some EKind.file := by
  rw [fileAt_eq_some] at h
  simp [kindAt, h, kindOf]

theorem fileAt_of_isDir {fs : FNode} {p : List Name}
    (h : kindAt fs p = some EKind.dir) : fileAt fs p = none := by
  unfold kindAt at h
  unfold fileAt
  cases hn : nodeAt fs p with
  | none => rfl
  | some m =>
      rw [hn] at h
      cases m with
      | dir cs => rfl
      | file c => simp [kindOf] at h
      | symlink t => simp [kindOf] at h
      | other => simp [kindOf] at h

/-- The destination-preparation stage preserves every file. -/
theorem prep_fileAt {fs fs1 : FNode} {dest : List Name}
    (hprep : (nodeExists fs dest = false ∧ mkdirAll fs dest = some fs1) ∨
      (nodeExists fs dest = true ∧ fs1 = fs)) :
    ∀ q, fileAt fs1 q = fileAt fs q := by
  rcases hprep with ⟨_, hmk⟩ | ⟨_, rfl⟩
  · exact mkdirAll_fileAt hmk
  · intro q; rfl

/-- The destination-preparation stage preserves every node incomparable with
the destination root. -/
theorem prep_out {fs fs1 : FNode} {dest : List Name}
    (hprep : (nodeExists fs dest = false ∧ mkdirAll fs dest = some fs1) ∨
      (nodeExists fs dest = true ∧ fs1 = fs)) :
    ∀ q, ¬ startsWith q dest = true → ¬ startsWith dest q = true →
      nodeAt fs1 q = nodeAt fs q := by
  rcases hprep with ⟨_, hmk⟩ | ⟨_, rfl⟩
  · exact mkdirAll_out hmk
  · intro q _ _; rfl

/-- Into a fresh destination, nothing exists strictly below the destination
root after preparation. -/
theorem prep_kind_fresh {fs fs1 : FNode} {dest : List Name}
    (hfresh : nodeExists fs dest = false) (hmk : mkdirAll fs dest = some fs1) :
    ∀ rel, rel ≠ [] → kindAt fs1 (dest ++ rel) = none := by
  intro rel hne
  rcases mkdirAll_kindAt hmk (dest ++ rel) with hk | ⟨_, _, h3⟩
  · rw [hk]
    simp [kindAt, nodeAt_fresh_ext (nodeExists_false hfresh) rel]
  · have := startsWith_length h3
    simp at this
    exact absurd this hne

theorem prep_fileAt_fresh {fs fs1 : FNode} {dest : List Name}
    (hfresh : nodeExists fs dest = false) (hmk : mkdirAll fs dest = some fs1) :
    ∀ rel, fileAt fs1 (dest ++ rel) = none := by
  intro rel
  rw [mkdirAll_fileAt hmk]
  simp [fileAt, nodeAt_fresh_ext (nodeExists_false hfresh) rel]

theorem cloneEntries_eq {fs : FNode} {src : List Name} {opts : Options}
    {ov : Option (List OvGlob)} {n : FNode}
    (hov : cloneOverrides opts = .ok ov) (hn : nodeAt fs src = some n) :
    cloneEntries fs src opts = walkAll n ov := by
  unfold cloneEntries
  rw [hov, hn]

/-- The dropLast of a nonempty path is a strictly shorter prefix. -/
theorem dropLast_sw {p : List Name} (hp : p ≠ []) :
    startsWith p.dropLast p = true ∧ p.dropLast.length < p.length := by
  have h := List.dropLast_append_getLast hp
  constructor
  · nth_rewrite 2 [← h]
    exact startsWith_append _ _
  · nth_rewrite 2 [← h]
    simp

/-- The source subtree is never mutated by a successful clone. -/
theorem cloneTree_src_stable {fs : FNode} {src dest : List Name}
    {opts : Options} {env : Env} {fs' : FNode}
    (hsd : ¬ startsWith src dest = true) (hds : ¬ startsWith dest src = true)
    (h : cloneTree fs src dest opts env = (none, fs')) :
    ∀ x, nodeAt fs' (src ++ x) = nodeAt fs (src ++ x) := by
  obtain ⟨_, _, fs1, ov, n, st', hprep, hov, hn, hpe, rfl⟩ := cloneTree_ok_inv h
  obtain ⟨mA, _, _, _, _⟩ := processEntries_ok hsd hds _ _ _ hpe
  intro x
  obtain ⟨h1, h2⟩ := incomp_ext hds hsd x
  rw [mA (src ++ x) h2 h1]
  exact prep_out hprep (src ++ x) h2 h1

theorem kindAt_eq_none {fs : FNode} {p : List Name} :
    kindAt fs p = none ↔ nodeAt fs p = none := by
  unfold kindAt
  exact Option.map_eq_none'

theorem nodeExists_eq_kind (fs : FNode) (p : List Name) :
    nodeExists fs p = (kindAt fs p).isSome := by
  unfold nodeExists kindAt
  cases nodeAt fs p <;> rfl

/-- The walk loop never produces an `InvalidGlob` error (its errors are
`CreateDirectory`, `Io`, and `Copy`). -/
theorem cloneStep_no_invalidGlob {src dest : List Name} {opts : Options}
    {env : Env} {st st' : CState} {e : RelPath × EKind} {pat : String}
    {ge : GlobErr}
    (h : cloneStep src dest opts env st e = (some (.invalidGlob pat ge), st')) :
    False := by
  rw [cloneStep] at h
  dsimp only at h
  by_cases h1 : e.1 = []
  · rw [if_pos h1] at h
    simp at h
  · rw [if_neg h1] at h
    by_cases h2 : e.2 = EKind.file
    swap
    · rw [if_neg h2] at h
      simp at h
    · rw [if_pos h2] at h
      repeat' split at h
      all_goals simp_all

theorem processEntries_no_invalidGlob {src dest : List Name} {opts : Options}
    {env : Env} :
    ∀ (es : List (RelPath × EKind)) (st st' : CState) (pat : String)
      (ge : GlobErr),
    processEntries src dest opts env es st =
      (some (.invalidGlob pat ge), st') → False := by
  intro es
  induction es with
  | nil =>
      intro st st' pat ge h
      simp [processEntries] at h
  | cons e es ih =>
      intro st st' pat ge h
      rw [processEntries] at h
      cases hstep : cloneStep src dest opts env st e with
      | mk r1 st1 =>
          rw [hstep] at h
          cases r1 with
          | some err =>
              simp only [Prod.mk.injEq, Option.some.injEq] at h
              rw [h.1] at hstep
              exact cloneStep_no_invalidGlob hstep
          | none =>
              dsimp only at h
              exact ih st1 st' pat ge h

/-! ### Claim theorems -/

/-- C2: `clone_tree` returns `SourceNotFound` when the source does not
exist, `SourceNotDirectory` when it exists but is not a directory, and
`DestinationExists` when the destination exists while overwrite is false; in
each rejection the returned filesystem equals the input filesystem — no
mutation occurred. -/
theorem clone_validation_rejects (fs : FNode) (src dest : List Name)
    (opts : Options) (env : Env) :
    (nodeExists fs src = false →
      cloneTree fs src dest opts env = (some (.sourceNotFound src), fs)) ∧
    (nodeExists fs src = true → isDirAt fs src = false →
      cloneTree fs src dest opts env = (some (.sourceNotDirectory src), fs)) ∧
    (nodeExists fs src = true → isDirAt fs src = true →
      nodeExists fs dest = true → opts.overwrite = false →
      cloneTree fs src dest opts env = (some (.destinationExists dest), fs)) := by
  refine ⟨?_, ?_, ?_⟩
  · intro h1
    rw [cloneTree, if_pos (by simp [h1])]
  · intro h1 h2
    rw [cloneTree, if_neg (by simp [h1]), if_pos (by simp [h2])]
  · intro h1 h2 h3 h4
    rw [cloneTree, if_neg (by simp [h1]), if_neg (by simp [h2]),
      if_pos (by simp [h3, h4])]

/-- C2 witness: a concrete rejected run. -/
theorem clone_validation_witness :
    nodeExists fsOne ["no"] = false ∧
    cloneTree fsOne ["no"] ["d"] ⟨[], false⟩ Env.clean =
      (some (.sourceNotFound ["no"]), fsOne) :=
  ⟨rfl, (clone_validation_rejects fsOne ["no"] ["d"] ⟨[], false⟩ Env.clean).1 rfl⟩

/-- C4 (code bug): the configuration consumed by the core clone operation
consists of exactly the pattern list and the overwrite flag — lib.rs's
`Options` has no `no_reflink` field or builder, even though the CLI
(`ctree/src/main.rs`) calls `Options::new().no_reflink(...)` and the copy at
lib.rs line 217 unconditionally attempts `reflink_or_copy`. -/
theorem options_fields_only : ∀ o : Options, o = Options.mk o.globs o.overwrite :=
  fun _ => rfl

/-- C1 counterexample: with overwrite enabled and a pre-populated
destination, a successful clone with an empty pattern list leaves a
destination file (`b.txt`) that has no counterpart in the source, so the
destination's set of relative file paths differs from the source's. -/
theorem clone_full_fidelity_cex :
    (cloneTree fsPair ["s"] ["d"] ⟨[], true⟩ Env.clean).1 = none ∧
    fileAt (cloneTree fsPair ["s"] ["d"] ⟨[], true⟩ Env.clean).2
      ["d", "b.txt"] = some [2] ∧
    fileAt fsPair ["s", "b.txt"] = none :=
  ⟨rfl, rfl, rfl⟩

/-- C3 counterexample: in `["!a.txt", "a.txt"]` the path `a.txt` matches the
exclude pattern (and the include), yet it is copied — the later include
overrides the earlier exclude; permuting the two patterns flips the outcome,
so the decision is order-dependent. -/
theorem clone_exclude_order_cex :
    (compileOverrides ["!a.txt", "a.txt"]).map (List.map OvGlob.exclude) =
      .ok [true, false] ∧
    (compileOverrides ["!a.txt", "a.txt"]).map
      (List.map (fun g => ovGlobMatch g ["a.txt"] false)) = .ok [true, true] ∧
    (cloneTree fsOne ["s"] ["d"] ⟨["!a.txt", "a.txt"], false⟩ Env.clean).1 =
      none ∧
    fileAt (cloneTree fsOne ["s"] ["d"] ⟨["!a.txt", "a.txt"], false⟩
      Env.clean).2 ["d", "a.txt"] = some [1] ∧
    (cloneTree fsOne ["s"] ["d"] ⟨["a.txt", "!a.txt"], false⟩ Env.clean).1 =
      none ∧
    fileAt (cloneTree fsOne ["s"] ["d"] ⟨["a.txt", "!a.txt"], false⟩
      Env.clean).2 ["d", "a.txt"] = none :=
  ⟨rfl, rfl, rfl, rfl, rfl, rfl⟩

/-- C5 counterexample: with the malformed pattern `[`, `clone_tree` returns
`InvalidGlob` — but the destination directory has been created by then (it
did not exist before the call). -/
theorem clone_invalid_glob_cex :
    (cloneTree fsOne ["s"] ["dest"] ⟨["["], false⟩ Env.clean).1 =
      some (.invalidGlob "[" .unclosedClass) ∧
    kindAt (cloneTree fsOne ["s"] ["dest"] ⟨["["], false⟩ Env.clean).2
      ["dest"] = some EKind.dir ∧
    kindAt fsOne ["dest"] = none :=
  ⟨rfl, rfl, rfl⟩

/-- C7 counterexample: when the pre-copy overwrite delete fails, the error
surfaced is the `Io` variant (which carries no paths), not
`Copy{src, dest, cause}` as the claim states. -/
theorem clone_remove_error_cex :
    (cloneTree fsRem ["s"] ["d"] ⟨[], true⟩ ⟨[["d", "a.txt"]], []⟩).1 =
      some Error.io ∧
    (cloneTree fsRem ["s"] ["d"] ⟨[], true⟩ ⟨[["d", "a.txt"]], []⟩).2 =
      fsRem :=
  ⟨rfl, rfl⟩

/-- C9 counterexample: `sub` is a traversed directory entry (not a regular
file), yet after a successful clone its mirrored destination path `d/sub`
exists — created as the parent of a copied file. -/
theorem clone_dir_created_cex :
    ((["sub"], EKind.dir) ∈ cloneEntries fsFresh ["s"] ⟨[], false⟩) ∧
    (cloneTree fsFresh ["s"] ["d"] ⟨[], false⟩ Env.clean).1 = none ∧
    kindAt (cloneTree fsFresh ["s"] ["d"] ⟨[], false⟩ Env.clean).2
      ["d", "sub"] = some EKind.dir :=
  ⟨by decide, rfl, rfl⟩

/-- C10 counterexample: under overwrite into a pre-existing destination, a
successful clone leaves the pre-existing directory `d/old` in place although
it is neither the destination root nor an ancestor of any copied file. -/
theorem clone_dirs_covered_cex :
    (cloneTree fsOld ["s"] ["d"] ⟨[], true⟩ Env.clean).1 = none ∧
    kindAt (cloneTree fsOld ["s"] ["d"] ⟨[], true⟩ Env.clean).2
      ["d", "old"] = some EKind.dir ∧
    (cloneEntries fsOld ["s"] ⟨[], true⟩).all
      (fun e => !(e.2 == EKind.file &&
        (startsWith ["old"] e.1.dropLast || e.1 == ["old"]))) = true :=
  ⟨rfl, rfl, rfl⟩

/-- C1 (amended: destination does not pre-exist): for any source tree and an
empty pattern list, a successful clone into a fresh destination yields, at
every relative path, exactly the source's regular-file content — the
destination's set of relative file paths and their bytes equal the
source's. -/
theorem clone_full_fidelity_fresh {fs : FNode} {src dest : List Name}
    {opts : Options} {env : Env} {fs' : FNode}
    (hglobs : opts.globs = [])
    (hfresh : nodeExists fs dest = false)
    (hsd : ¬ startsWith src dest = true) (hds : ¬ startsWith dest src = true)
    (h : cloneTree fs src dest opts env = (none, fs')) :
    ∀ rel, fileAt fs' (dest ++ rel) = fileAt fs (src ++ rel) := by
  obtain ⟨hex, hdir, fs1, ov, n, st', hprep, hov, hn, hpe, rfl⟩ :=
    cloneTree_ok_inv h
  rcases hprep with ⟨_, hmk⟩ | ⟨hdest, _⟩
  swap
  · rw [hfresh] at hdest; cases hdest
  have hovn : ov = none := by
    rw [cloneOverrides, hglobs] at hov
    simp at hov
    exact hov.symm
  subst hovn
  obtain ⟨mA, mB, mC, mD, mE⟩ := processEntries_ok hsd hds _ _ _ hpe
  have hnfs : nodeAt fs src = some n := by
    rw [← prep_out (Or.inl ⟨hfresh, hmk⟩) src hsd hds]
    exact hn
  intro rel
  by_cases hc : copied (walkAll n none) rel
  · rw [mB rel, if_pos hc, prep_fileAt (Or.inl ⟨hfresh, hmk⟩) (src ++ rel)]
  · rw [mB rel, if_neg hc,
      show fileAt (fs1, [dest]).1 (dest ++ rel) = none from
        prep_fileAt_fresh hfresh hmk rel]
    cases hf : fileAt fs (src ++ rel) with
    | none => rfl
    | some c =>
        exfalso
        have hnode : nodeAt fs (src ++ rel) = some (FNode.file c) :=
          fileAt_eq_some.1 hf
        have hrelne : rel ≠ [] := by
          intro hrel
          subst hrel
          rw [List.append_nil] at hf
          have hd : kindAt fs src = some EKind.dir := by simpa [isDirAt] using hdir
          rw [fileAt_of_isDir hd] at hf
          cases hf
        have hnrel : nodeAt n rel = some (FNode.file c) := by
          rw [nodeAt_append, hnfs] at hnode
          simpa using hnode
        have hmem := walk_complete rel n (FNode.file c) [] hnrel hrelne
        rw [List.nil_append] at hmem
        exact hc ⟨hrelne, List.mem_cons.2 (Or.inr hmem)⟩

/-- C1 witness instance. -/
theorem clone_full_fidelity_witness :
    fileAt (cloneTree fsFresh ["s"] ["d"] ⟨[], false⟩ Env.clean).2
      ["d", "a.txt"] = fileAt fsFresh ["s", "a.txt"] :=
  @clone_full_fidelity_fresh fsFresh ["s"] ["d"] ⟨[], false⟩ Env.clean
    (cloneTree fsFresh ["s"] ["d"] ⟨[], false⟩ Env.clean).2
    rfl rfl (by decide) (by decide) rfl ["a.txt"]

/-- C6: under overwrite into a pre-existing destination, every included
source file's mirrored destination path holds the source content after
success, and every other destination path retains its prior content — a
merge, not a wipe. -/
theorem clone_overwrite_merge {fs : FNode} {src dest : List Name}
    {opts : Options} {env : Env} {fs' : FNode}
    (hsd : ¬ startsWith src dest = true) (hds : ¬ startsWith dest src = true)
    (_how : opts.overwrite = true) (hdest : nodeExists fs dest = true)
    (h : cloneTree fs src dest opts env = (none, fs')) :
    ∀ rel,
      (copied (cloneEntries fs src opts) rel →
        fileAt fs' (dest ++ rel) = fileAt fs (src ++ rel)) ∧
      (¬ copied (cloneEntries fs src opts) rel →
        fileAt fs' (dest ++ rel) = fileAt fs (dest ++ rel)) := by
  obtain ⟨hex, hdir, fs1, ov, n, st', hprep, hov, hn, hpe, rfl⟩ :=
    cloneTree_ok_inv h
  rcases hprep with ⟨hfr, _⟩ | ⟨_, hfs1⟩
  · rw [hdest] at hfr; cases hfr
  obtain ⟨mA, mB, mC, mD, mE⟩ := processEntries_ok hsd hds _ _ _ hpe
  have hn' : nodeAt fs src = some n := by rw [← hfs1]; exact hn
  have hce : cloneEntries fs src opts = walkAll n ov := cloneEntries_eq hov hn'
  intro rel
  rw [hce]
  constructor
  · intro hc
    have hB := mB rel
    rw [if_pos hc] at hB
    rw [hB, show ((fs1, [dest]) : CState).1 = fs1 from rfl, hfs1]
  · intro hc
    have hB := mB rel
    rw [if_neg hc] at hB
    rw [hB, show ((fs1, [dest]) : CState).1 = fs1 from rfl, hfs1]

/-- C6 witness instance: a pre-existing destination file not present in the
source keeps its content. -/
theorem clone_overwrite_merge_witness :
    fileAt (cloneTree fsOver ["s"] ["d"] ⟨[], true⟩ Env.clean).2
      ["d", "keep"] = fileAt fsOver ["d", "keep"] :=
  ((@clone_overwrite_merge fsOver ["s"] ["d"] ⟨[], true⟩ Env.clean
    (cloneTree fsOver ["s"] ["d"] ⟨[], true⟩ Env.clean).2
    (by decide) (by decide) rfl rfl rfl) ["keep"]).2 (by decide)

/-- C10 (amended: destination does not pre-exist): after a successful clone
into a fresh destination, every directory under the destination is the
destination root itself or lies on the parent chain of some copied file; a
source directory whose subtree contains no included file is not
materialized. -/
theorem clone_dirs_covered {fs : FNode} {src dest : List Name}
    {opts : Options} {env : Env} {fs' : FNode}
    (hsd : ¬ startsWith src dest = true) (hds : ¬ startsWith dest src = true)
    (hfresh : nodeExists fs dest = false)
    (h : cloneTree fs src dest opts env = (none, fs')) :
    ∀ q, kindAt fs' (dest ++ q) = some EKind.dir →
      q = [] ∨ ∃ rel, copied (cloneEntries fs src opts) rel ∧
        startsWith q rel.dropLast = true := by
  obtain ⟨hex, hdir, fs1, ov, n, st', hprep, hov, hn, hpe, rfl⟩ :=
    cloneTree_ok_inv h
  rcases hprep with ⟨_, hmk⟩ | ⟨hdest, _⟩
  swap
  · rw [hfresh] at hdest; cases hdest
  obtain ⟨mA, mB, mC, mD, mE⟩ := processEntries_ok hsd hds _ _ _ hpe
  have hnfs : nodeAt fs src = some n := by
    rw [← prep_out (Or.inl ⟨hfresh, hmk⟩) src hsd hds]
    exact hn
  have hce : cloneEntries fs src opts = walkAll n ov := cloneEntries_eq hov hnfs
  intro q hq
  rcases mD (dest ++ q) with hk | ⟨rel, hc, halt⟩
  · by_cases hqe : q = []
    · exact Or.inl hqe
    · rw [hq] at hk
      rw [prep_kind_fresh hfresh hmk q hqe] at hk
      cases hk
  · rcases halt with ⟨_, hsw⟩ | ⟨_, hfile⟩
    · rw [startsWith_cancel] at hsw
      exact Or.inr ⟨rel, hce ▸ hc, hsw⟩
    · rw [hq] at hfile
      cases hfile

/-- C10 witness instance: the materialized `sub` directory is on the parent
chain of a copied file. -/
theorem clone_dirs_covered_witness :
    (["sub"] : RelPath) = [] ∨
    ∃ rel, copied (cloneEntries fsFresh ["s"] ⟨[], false⟩) rel ∧
      startsWith ["sub"] rel.dropLast = true :=
  @clone_dirs_covered fsFresh ["s"] ["d"] ⟨[], false⟩ Env.clean
    (cloneTree fsFresh ["s"] ["d"] ⟨[], false⟩ Env.clean).2
    (by decide) (by decide) rfl rfl ["sub"] rfl

/-- C3 (amended): pattern evaluation is last-match-wins over the override
list, so an include listed after an exclude can resurrect a path the exclude
matched, and the decision depends on pattern order; what does hold is
subtree pruning: when the override matcher's final decision for an ancestor
directory of `rel` is ignore, nothing is created at `rel`'s mirrored
destination path, whatever include patterns say about descendants. -/
theorem clone_exclude_prune {fs : FNode} {src dest : List Name}
    {opts : Options} {env : Env} {fs' : FNode} {ov : Option (List OvGlob)}
    (hsd : ¬ startsWith src dest = true) (hds : ¬ startsWith dest src = true)
    (hfresh : nodeExists fs dest = false)
    (hov : cloneOverrides opts = .ok ov)
    (h : cloneTree fs src dest opts env = (none, fs'))
    {rel anc : RelPath}
    (hanc : startsWith anc rel = true) (hne : anc ≠ []) (hproper : anc ≠ rel)
    (hig : ovDecide ov anc true = OvMatch.ignore) :
    nodeAt fs' (dest ++ rel) = none := by
  obtain ⟨hex, hdir, fs1, ov', n, st', hprep, hov', hn, hpe, rfl⟩ :=
    cloneTree_ok_inv h
  have hove : ov' = ov := by
    rw [hov] at hov'
    injection hov' with hh
    exact hh.symm
  subst hove
  rcases hprep with ⟨_, hmk⟩ | ⟨hdest, _⟩
  swap
  · rw [hfresh] at hdest; cases hdest
  obtain ⟨mA, mB, mC, mD, mE⟩ := processEntries_ok hsd hds _ _ _ hpe
  have hrelne : rel ≠ [] := by
    intro hrel
    subst hrel
    cases anc with
    | nil => exact hne rfl
    | cons a q => simp [startsWith] at hanc
  rw [← kindAt_eq_none]
  rcases mD (dest ++ rel) with hk | ⟨rel', hc, halt⟩
  · rw [hk]
    exact prep_kind_fresh hfresh hmk rel hrelne
  · exfalso
    have hmem : (rel', EKind.file) ∈ walkInto n [] ov' := by
      rcases List.mem_cons.1 hc.2 with hh | hh
      · cases congrArg Prod.snd hh
      · exact hh
    have hprune := walk_prune_into n [] ov' rel' EKind.file hmem
    have hanclen : 0 < anc.length := by
      cases anc with
      | nil => exact absurd rfl hne
      | cons a q => simp
    rcases halt with ⟨_, hsw⟩ | ⟨heq, _⟩
    · rw [startsWith_cancel] at hsw
      have hrne' : rel' ≠ [] := hc.1
      obtain ⟨hdl, hdllen⟩ := dropLast_sw hrne'
      have hancrel' : startsWith anc rel' = true :=
        startsWith_trans (startsWith_trans hanc hsw) hdl
      have hancne' : anc ≠ rel' := by
        intro he
        have l1 := startsWith_length hanc
        have l2 := startsWith_length hsw
        rw [he] at l1
        omega
      exact hprune anc hancrel' hanclen hancne' hig
    · have hrr : rel = rel' := List.append_cancel_left heq
      subst hrr
      exact hprune anc hanc hanclen hproper hig

/-- C3 witness: `!sub` ignores the directory `sub`, so claiming nothing is
created below it. -/
theorem clone_exclude_prune_witness :
    nodeAt (cloneTree fsFresh ["s"] ["d"] ⟨["!sub"], false⟩ Env.clean).2
      ["d", "sub", "b.txt"] = none := by
  have hig : ovDecide ((cloneOverrides ⟨["!sub"], false⟩).toOption.getD none)
      ["sub"] true = OvMatch.ignore := by decide
  exact @clone_exclude_prune fsFresh ["s"] ["d"] ⟨["!sub"], false⟩ Env.clean
    (cloneTree fsFresh ["s"] ["d"] ⟨["!sub"], false⟩ Env.clean).2
    ((cloneOverrides ⟨["!sub"], false⟩).toOption.getD none)
    (by decide) (by decide) rfl rfl rfl ["sub", "b.txt"] ["sub"]
    (by decide) (by decide) (by decide) hig

/-- C9 (amended): processing a traversed non-file entry performs no
filesystem action: over a well-formed source into a fresh destination, a
yielded symlink or other-special entry has nothing at its mirrored
destination path after success; directories appear only as parent chains of
copied files (see the C10 theorem). -/
theorem clone_nonfile_entries {fs : FNode} {src dest : List Name}
    {opts : Options} {env : Env} {fs' : FNode}
    (hsd : ¬ startsWith src dest = true) (hds : ¬ startsWith dest src = true)
    (hfresh : nodeExists fs dest = false) (hwf : wfN fs = true)
    (h : cloneTree fs src dest opts env = (none, fs'))
    {rel : RelPath} {k : EKind}
    (hmem : (rel, k) ∈ cloneEntries fs src opts)
    (hk : k = EKind.symlink ∨ k = EKind.other) :
    nodeAt fs' (dest ++ rel) = none := by
  obtain ⟨hex, hdir, fs1, ov, n, st', hprep, hov, hn, hpe, rfl⟩ :=
    cloneTree_ok_inv h
  rcases hprep with ⟨_, hmk⟩ | ⟨hdest, _⟩
  swap
  · rw [hfresh] at hdest; cases hdest
  obtain ⟨mA, mB, mC, mD, mE⟩ := processEntries_ok hsd hds _ _ _ hpe
  have hnfs : nodeAt fs src = some n := by
    rw [← prep_out (Or.inl ⟨hfresh, hmk⟩) src hsd hds]
    exact hn
  rw [cloneEntries_eq hov hnfs] at hmem
  have hkd : k ≠ EKind.dir := by
    rcases hk with rfl | rfl <;> simp
  have hmem' : (rel, k) ∈ walkInto n [] ov := by
    rcases List.mem_cons.1 hmem with hh | hh
    · exact absurd (congrArg Prod.snd hh) hkd
    · exact hh
  have hwfn : wfN n = true := wfN_nodeAt hnfs hwf
  obtain ⟨suf, hps, hsufne, m, hm, hkm⟩ := walk_sound_into n hwfn [] ov rel k hmem'
  rw [List.nil_append] at hps
  subst hps
  have hmnd : isDirN m = false := by
    cases m with
    | dir cs => exact absurd (hkm ▸ rfl) hkd
    | file c => rfl
    | symlink t => rfl
    | other => rfl
  rw [← kindAt_eq_none]
  rcases mD (dest ++ rel) with hk' | ⟨rel', hc, halt⟩
  · rw [hk']
    exact prep_kind_fresh hfresh hmk rel hsufne
  · exfalso
    have hmemrel' : (rel', EKind.file) ∈ walkInto n [] ov := by
      rcases List.mem_cons.1 hc.2 with hh | hh
      · cases congrArg Prod.snd hh
      · exact hh
    obtain ⟨suf', hps', hsufne', m', hm', hkm'⟩ :=
      walk_sound_into n hwfn [] ov rel' EKind.file hmemrel'
    rw [List.nil_append] at hps'
    subst hps'
    rcases halt with ⟨_, hsw⟩ | ⟨heq, _⟩
    · rw [startsWith_cancel] at hsw
      have hrne' : rel' ≠ [] := hc.1
      obtain ⟨hdl, hdllen⟩ := dropLast_sw hrne'
      have hss : startsWith rel rel' = true := startsWith_trans hsw hdl
      obtain ⟨ext, hext⟩ := startsWith_eq_true.1 hss
      have hextne : ext ≠ [] := by
        intro hx
        subst hx
        rw [List.append_nil] at hext
        subst hext
        have := startsWith_length hsw
        omega
      rw [hext, nodeAt_append, hm, Option.some_bind,
        nodeAt_of_not_dir hmnd hextne] at hm'
      cases hm'
    · have hrr : rel = rel' := List.append_cancel_left heq
      subst hrr
      rw [hm'] at hm
      injection hm with hmm
      subst hmm
      rw [hkm'] at hkm
      rcases hk with hh | hh <;> exact absurd (hkm.trans hh) (by simp)

/-- C9 witness: the symlink entry `ln` has nothing at its mirrored path. -/
theorem clone_nonfile_witness :
    nodeAt (cloneTree fsFresh ["s"] ["d"] ⟨[], false⟩ Env.clean).2
      ["d", "ln"] = none :=
  @clone_nonfile_entries fsFresh ["s"] ["d"] ⟨[], false⟩ Env.clean
    (cloneTree fsFresh ["s"] ["d"] ⟨[], false⟩ Env.clean).2
    (by decide) (by decide) rfl (by decide) rfl ["ln"] EKind.symlink
    (by decide) (Or.inl rfl)

/-- C8: cloning twice with overwrite enabled, the same options, and an
unchanged source yields a destination identical (relative paths with their
kinds, and file contents) to cloning once. -/
theorem clone_idempotent {fs : FNode} {src dest : List Name} {opts : Options}
    {env : Env} {fs1' fs2' : FNode}
    (hsd : ¬ startsWith src dest = true) (hds : ¬ startsWith dest src = true)
    (_how : opts.overwrite = true)
    (h1 : cloneTree fs src dest opts env = (none, fs1'))
    (h2 : cloneTree fs1' src dest opts env = (none, fs2')) :
    ∀ rel, fileAt fs2' (dest ++ rel) = fileAt fs1' (dest ++ rel) ∧
           kindAt fs2' (dest ++ rel) = kindAt fs1' (dest ++ rel) := by
  have hstab := cloneTree_src_stable hsd hds h1
  obtain ⟨hex1, hdir1, fsp1, ov1, n1, st1', hprep1, hov1, hn1, hpe1, rfl⟩ :=
    cloneTree_ok_inv h1
  obtain ⟨hex2, hdir2, fsp2, ov2, n2, st2', hprep2, hov2, hn2, hpe2, rfl⟩ :=
    cloneTree_ok_inv h2
  have hove : ov2 = ov1 := by
    rw [hov1] at hov2
    injection hov2 with hh
    exact hh.symm
  subst hove
  obtain ⟨m1A, m1B, m1C, m1D, m1E⟩ := processEntries_ok hsd hds _ _ _ hpe1
  have hnsrc1 : nodeAt fs src = some n1 := by
    rw [← prep_out hprep1 src hsd hds]
    exact hn1
  have hstabsrc : ∀ x, nodeAt st1'.1 (src ++ x) = nodeAt fs (src ++ x) := hstab
  -- the destination exists after the first run
  have hde : nodeExists st1'.1 dest = true := by
    rw [nodeExists_eq_kind]
    rcases hprep1 with ⟨hfr, hmk⟩ | ⟨hdest, hfsp⟩
    · have hd1 : kindAt fsp1 dest = some EKind.dir := mkdirAll_target hmk
      rw [m1C dest hd1]
      rfl
    · rw [nodeExists_eq_kind] at hdest
      rcases m1D dest with hk | ⟨rel', _, halt⟩
      · rw [hk, show ((fsp1, [dest]) : CState).1 = fsp1 from rfl, hfsp]
        exact hdest
      · rcases halt with ⟨hdir', _⟩ | ⟨_, hfile⟩
        · rw [hdir']; rfl
        · rw [hfile]; rfl
  -- the second run reuses the destination
  rcases hprep2 with ⟨hfr2, _⟩ | ⟨_, hfsp2⟩
  · rw [hde] at hfr2; cases hfr2
  -- and walks the same entries
  have hn2' : n2 = n1 := by
    rw [hfsp2] at hn2
    have hx := hstabsrc []
    rw [List.append_nil] at hx
    rw [hx, hnsrc1] at hn2
    injection hn2 with hh
    exact hh.symm
  subst hn2'
  obtain ⟨m2A, m2B, m2C, m2D, m2E⟩ := processEntries_ok hsd hds _ _ _ hpe2
  -- run-1 facts about copied entries
  have hcopyfile : ∀ rel, copied (walkAll n2 ov2) rel →
      fileAt st1'.1 (dest ++ rel) = fileAt fs (src ++ rel) ∧
      (fileAt fs (src ++ rel)).isSome := by
    intro rel hc
    have hB := m1B rel
    rw [if_pos hc, show ((fsp1, [dest]) : CState).1 = fsp1 from rfl,
      prep_fileAt hprep1 (src ++ rel)] at hB
    have hsome := m1E rel hc
    rw [show ((fsp1, [dest]) : CState).1 = fsp1 from rfl,
      prep_fileAt hprep1 (src ++ rel)] at hsome
    exact ⟨hB, hsome⟩
  have hsrc1' : ∀ x, fileAt st1'.1 (src ++ x) = fileAt fs (src ++ x) :=
    fun x => fileAt_congr (hstabsrc x)
  intro rel
  constructor
  · -- file contents are stable under the second run
    have hB2 := m2B rel
    rw [show ((fsp2, [dest]) : CState).1 = fsp2 from rfl, hfsp2] at hB2
    by_cases hc : copied (walkAll n2 ov2) rel
    · rw [if_pos hc] at hB2
      rw [hB2, hsrc1' rel, ← (hcopyfile rel hc).1]
    · rw [if_neg hc] at hB2
      rw [hB2]
  · -- kinds are stable under the second run
    rcases m2D (dest ++ rel) with hk | ⟨rel', hc', halt⟩
    · rw [hk, show ((fsp2, [dest]) : CState).1 = fsp2 from rfl, hfsp2]
    · rcases halt with ⟨hdir2', hsw⟩ | ⟨heq, hfile2⟩
      · rw [hdir2']
        have hsome' : (fileAt st1'.1 (dest ++ rel')).isSome := by
          rw [(hcopyfile rel' hc').1]
          exact (hcopyfile rel' hc').2
        obtain ⟨c', hc'eq⟩ := Option.isSome_iff_exists.1 hsome'
        have hnode' : nodeAt st1'.1 (dest ++ rel') = some (FNode.file c') :=
          fileAt_eq_some.1 hc'eq
        have hrne' : rel' ≠ [] := hc'.1
        obtain ⟨hdl, hdln⟩ := dropLast_sw hrne'
        have hswfull : startsWith (dest ++ rel) (dest ++ rel') = true := by
          apply startsWith_trans hsw
          rw [startsWith_cancel]
          exact hdl
        obtain ⟨ext, hext⟩ := startsWith_eq_true.1 hswfull
        have hextne : ext ≠ [] := by
          intro hx
          subst hx
          rw [List.append_nil] at hext
          have hcc : rel' = rel := List.append_cancel_left hext
          rw [startsWith_cancel] at hsw
          have l1 := startsWith_length hsw
          rw [hcc] at l1 hdln
          omega
        rw [hext] at hnode'
        obtain ⟨cs, hcs⟩ := ancestors_dir (by rw [hnode']; rfl) hextne
        simp [kindAt, hcs, kindOf]
      · have hrr : rel = rel' := List.append_cancel_left heq
        subst hrr
        rw [hfile2]
        obtain ⟨c', hc'eq⟩ := Option.isSome_iff_exists.1
          (show (fileAt st1'.1 (dest ++ rel)).isSome by
            rw [(hcopyfile rel hc').1]
            exact (hcopyfile rel hc').2)
        exact (kindAt_of_fileAt hc'eq).symm

/-- C8 witness instance. -/
theorem clone_idempotent_witness :
    fileAt (cloneTree (cloneTree fsOver ["s"] ["d"] ⟨[], true⟩ Env.clean).2
        ["s"] ["d"] ⟨[], true⟩ Env.clean).2 ["d", "f1"] =
      fileAt (cloneTree fsOver ["s"] ["d"] ⟨[], true⟩ Env.clean).2 ["d", "f1"] :=
  ((@clone_idempotent fsOver ["s"] ["d"] ⟨[], true⟩ Env.clean
    (cloneTree fsOver ["s"] ["d"] ⟨[], true⟩ Env.clean).2
    (cloneTree (cloneTree fsOver ["s"] ["d"] ⟨[], true⟩ Env.clean).2
      ["s"] ["d"] ⟨[], true⟩ Env.clean).2
    (by decide) (by decide) rfl rfl rfl) ["f1"]).1

/-- C5 (amended): whenever `clone_tree` returns `InvalidGlob` — which
happens before traversal — no file content has changed, and the only
possible mutation is the creation of the destination directory chain (when
the destination did not pre-exist). -/
theorem clone_invalid_glob_mutation {fs : FNode} {src dest : List Name}
    {opts : Options} {env : Env} {pat : String} {ge : GlobErr} {fs' : FNode}
    (h : cloneTree fs src dest opts env = (some (.invalidGlob pat ge), fs')) :
    (∀ q, fileAt fs' q = fileAt fs q) ∧
    (∀ q, kindAt fs' q = kindAt fs q ∨
      (kindAt fs q = none ∧ kindAt fs' q = some EKind.dir ∧
        startsWith q dest = true)) := by
  rw [cloneTree] at h
  by_cases h1 : nodeExists fs src = true
  swap
  · rw [if_pos (by simpa using h1)] at h
    simp at h
  · rw [if_neg (not_not_intro h1)] at h
    by_cases h2 : isDirAt fs src = true
    swap
    · rw [if_pos (by simpa using h2)] at h
      simp at h
    · rw [if_neg (not_not_intro h2)] at h
      by_cases h3 : (nodeExists fs dest && !opts.overwrite) = true
      · rw [if_pos h3] at h
        simp at h
      · rw [if_neg h3] at h
        have main : ∀ fs1 : FNode,
            (match cloneOverrides opts with
             | .error e2 => (some e2, fs1)
             | .ok ov =>
                 match nodeAt fs1 src with
                 | some n =>
                     ((processEntries src dest opts env (walkAll n ov)
                       (fs1, [dest])).1,
                      (processEntries src dest opts env (walkAll n ov)
                       (fs1, [dest])).2.1)
                 | none => (some (.other "walk error"), fs1)) =
              (some (Error.invalidGlob pat ge), fs') → fs' = fs1 := by
          intro fs1 hm
          cases hov : cloneOverrides opts with
          | error e2 =>
              rw [hov] at hm
              simp only [Prod.mk.injEq] at hm
              exact hm.2.symm
          | ok ov =>
              rw [hov] at hm
              dsimp only at hm
              cases hn : nodeAt fs1 src with
              | none =>
                  rw [hn] at hm
                  simp at hm
              | some n =>
                  rw [hn] at hm
                  dsimp only at hm
                  cases hpe : processEntries src dest opts env (walkAll n ov)
                      (fs1, [dest]) with
                  | mk r1 st' =>
                      rw [hpe] at hm
                      cases r1 with
                      | none => simp at hm
                      | some err =>
                          simp only [Prod.mk.injEq, Option.some.injEq] at hm
                          rw [hm.1] at hpe
                          exact absurd hpe
                            (fun hx =>
                              processEntries_no_invalidGlob _ _ _ _ _ hx)
        by_cases hdest : nodeExists fs dest = true
        · rw [if_neg (not_not_intro hdest)] at h
          dsimp only at h
          have hfs : fs' = fs := main fs (by convert h using 2)
          subst hfs
          exact ⟨fun q => rfl, fun q => Or.inl rfl⟩
        · rw [if_pos (by simpa using hdest)] at h
          cases hmk : mkdirAll fs dest with
          | none =>
              rw [hmk] at h
              simp at h
          | some fs1 =>
              rw [hmk] at h
              dsimp only at h
              have hfs : fs' = fs1 := main fs1 (by convert h using 2)
              subst hfs
              exact ⟨mkdirAll_fileAt hmk, mkdirAll_kindAt hmk⟩

/-- C5 witness instance. -/
theorem clone_invalid_glob_witness :
    fileAt (cloneTree fsOne ["s"] ["dest"] ⟨["["], false⟩ Env.clean).2
      ["s", "a.txt"] = fileAt fsOne ["s", "a.txt"] :=
  (@clone_invalid_glob_mutation fsOne ["s"] ["dest"] ⟨["["], false⟩ Env.clean
    "[" .unclosedClass
    (cloneTree fsOne ["s"] ["dest"] ⟨["["], false⟩ Env.clean).2
    rfl).1 ["s", "a.txt"]

/-- C7 (amended): a failure of `reflink_or_copy` is surfaced as
`Copy{src, dest, cause}` carrying the offending paths; a failure of the
pre-copy overwrite delete is surfaced as the `Io` variant; either error
aborts the walk loop immediately, leaving the filesystem as already
mutated (prior copies remain). -/
theorem clone_copy_error_paths (src dest : List Name) (opts : Options)
    (env : Env) (st : CState) (e : RelPath × EKind)
    (es : List (RelPath × EKind))
    (h1 : e.1 ≠ []) (h2 : e.2 = EKind.file)
    (hca : (dest ++ e.1.dropLast) ∈ st.2) :
    ((dest ++ e.1) ∈ env.copyFailAt →
      (opts.overwrite && nodeExists st.1 (dest ++ e.1)) = false →
      cloneStep src dest opts env st e =
        (some (.copy (src ++ e.1) (dest ++ e.1)), st)) ∧
    (opts.overwrite = true → nodeExists st.1 (dest ++ e.1) = true →
      (dest ++ e.1) ∈ env.removeFailAt →
      cloneStep src dest opts env st e = (some Error.io, st)) ∧
    (∀ err st', cloneStep src dest opts env st e = (some err, st') →
      processEntries src dest opts env (e :: es) st = (some err, st')) := by
  refine ⟨?_, ?_, ?_⟩
  · intro hcf hov
    rw [cloneStep, if_neg h1, if_pos h2]
    dsimp only
    rw [if_pos hca]
    dsimp only
    rw [if_neg (by simp [hov])]
    dsimp only
    rw [if_pos hcf]
  · intro hov hex hrf
    rw [cloneStep, if_neg h1, if_pos h2]
    dsimp only
    rw [if_pos hca]
    dsimp only
    rw [if_pos (by simp [hov, hex])]
    rw [if_pos hrf]
  · intro err st' hstep
    rw [processEntries, hstep]

/-- C7 witness instance: an injected copy failure surfaces as `Copy` with
the offending source and destination paths. -/
theorem clone_copy_error_witness :
    cloneStep ["s"] ["d"] ⟨[], false⟩ ⟨[], [["d", "a.txt"]]⟩
      (fsOne, [["d"]]) (["a.txt"], EKind.file) =
      (some (.copy ["s", "a.txt"] ["d", "a.txt"]), (fsOne, [["d"]])) :=
  (clone_copy_error_paths ["s"] ["d"] ⟨[], false⟩ ⟨[], [["d", "a.txt"]]⟩
    (fsOne, [["d"]]) (["a.txt"], EKind.file) []
    (by decide) rfl (by decide)).1 (by decide) rfl

end CloneTree
